import Mathlib

/-!
# A shallow embedding of the `gc` mark-and-sweep collector

The repository ships the public header `src/gc.h`, the test suite
`test/test_gc.c` and the specification; the implementation translation
below follows the specification's component design (§3–§4.5) and is
pinned, where the tests under `src/` exercise concrete values, to the
behaviour the tests assert.

Machine addresses and word values are modelled as `Nat` (`0` is the null
pointer).  Destructors are opaque function pointers, modelled by a `Nat`
identity; invoking a destructor is recorded as a `(dtor, ptr)` pair in an
explicit event list.  The raw allocator is an opaque collaborator, so
every allocator entry point takes the address the raw allocator returned
as an explicit argument.  Heap memory contents are a parameter
`mem : Nat → Nat` (the word stored at an address) and the scanned stack
is a parameter `stack : List Nat` (the word values read from the scanned
range), both of which only the mark phase consults.
-/

namespace Gc

/-- Modelled from the spec: `tag` is a "small bitset with three
independent bits: `MARK`, `ROOT`, `LEAF`" (§3); `gc.c` is absent from
`src/`, so the bitset is embedded as three named booleans. -/
structure Tag where
  mark : Bool
  root : Bool
  leaf : Bool
deriving DecidableEq, Repr

/-- The all-clear tag `GC_TAG_NONE` (test `test_gc_allocation_new_delete`
expects freshly created records to carry it). -/
def GC_TAG_NONE : Tag := ⟨false, false, false⟩

/-- Modelled from the spec: an allocation record holds `ptr`, `size`,
`tag` and the optional destructor `dtor` (§3).  The intrusive `next`
chain pointer is represented by the position of the record in the
registry's record list. -/
structure Allocation where
  ptr : Nat
  size : Nat
  tag : Tag
  dtor : Option Nat
deriving DecidableEq, Repr

/-- A dimensionless load ratio (§3), stored as an exact fraction
`num / den` of naturals.  The C sources use `double`; every ratio the
repository's tests use (`0.0`, `0.2`, `0.5`, `0.8`, `DBL_MAX`) is an
exact fraction, and the spec phrases the policy in terms of real ratios,
so exact rational arithmetic is the faithful embedding. -/
structure Ratio where
  num : Nat
  den : Nat
deriving DecidableEq, Repr

/-- `a / b < r`, decided by cross-multiplication. -/
def fracLtRatio (a b : Nat) (r : Ratio) : Bool := a * r.den < r.num * b

/-- `r < a / b`, decided by cross-multiplication. -/
def ratioLtFrac (r : Ratio) (a b : Nat) : Bool := r.num * b < a * r.den

/-- `⌊r · c⌋` for a natural `c` — the value the C cast
`(size_t)(factor * capacity)` produces for non-negative factors. -/
def ratioMulFloor (r : Ratio) (c : Nat) : Nat := r.num * c / r.den

/-- The sweep-limit formula exactly as the spec words it —
`⌈sweep_factor · capacity⌉` (§3 (I5)) — written over the rationals for
comparison against the embedded code. -/
def sweepLimitCeilSpec (r : Ratio) (c : Nat) : Nat :=
  Nat.ceil ((r.num : ℚ) / (r.den : ℚ) * (c : ℚ))

/-- Modelled from the spec: the registry's scalar fields (§3).  The
bucket array is flattened into the single list `allocs` in bucket-walk
order; the spec leaves the walk order unspecified (§5 "Ordering"). -/
structure AllocationMap where
  capacity : Nat
  min_capacity : Nat
  size : Nat
  sweep_limit : Nat
  sweep_factor : Ratio
  downsize_factor : Ratio
  upsize_factor : Ratio
  allocs : List Allocation
deriving DecidableEq, Repr

/-- Modelled from the spec: collector state holds the registry, the
`paused` flag, `bos` and `min_size` (§3), matching `struct
GarbageCollector` in `src/gc.h`. -/
structure GarbageCollector where
  allocs : AllocationMap
  paused : Bool
  bos : Nat
  min_size : Nat
deriving DecidableEq, Repr

/-! ## Prime helper (§4.1) -/

/-- Trial-division loop over candidates `6k ± 1`; the fuel argument only
bounds the number of iterations and is chosen large enough that the loop
always stops at `i * i > n` first. -/
def is_prime_loop : Nat → Nat → Nat → Bool
  | 0, _, _ => true
  | fuel + 1, n, i =>
    if n < i * i then true
    else if n % i = 0 || n % (i + 2) = 0 then false
    else is_prime_loop fuel n (i + 6)

/-- Modelled from the spec: `is_prime(0)=is_prime(1)=false`,
`is_prime(2)=is_prime(3)=true`, otherwise trial division by 2, 3, then
`6k±1` up to `⌊√n⌋` (§4.1). -/
def is_prime (n : Nat) : Bool :=
  if n ≤ 1 then false
  else if n ≤ 3 then true
  else if n % 2 = 0 || n % 3 = 0 then false
  else is_prime_loop n n 5

/-- Search loop of `next_prime`; the fuel is generous enough (Bertrand)
for every call site in this development. -/
def next_prime_loop : Nat → Nat → Nat
  | 0, n => n
  | fuel + 1, n => if is_prime n then n else next_prime_loop fuel (n + 1)

/-- Modelled from the spec: `next_prime(n)` returns the least prime
`p ≥ n` (§4.1). -/
def next_prime (n : Nat) : Nat := next_prime_loop (2 * n + 4) n

/-! ## Record-list primitives -/

/-- Apply `f` to the first record whose `ptr` equals `p` (the in-place
update of a chained record in C). -/
def modifyOnPtr : List Allocation → Nat → (Allocation → Allocation) → List Allocation
  | [], _, _ => []
  | a :: rest, p, f =>
    if a.ptr = p then f a :: rest else a :: modifyOnPtr rest p f

/-- Unlink the first record whose `ptr` equals `p`; the boolean reports
whether a record was found. -/
def removeOnPtr : List Allocation → Nat → List Allocation × Bool
  | [], _ => ([], false)
  | a :: rest, p =>
    if a.ptr = p then (rest, true)
    else
      let r := removeOnPtr rest p
      (a :: r.1, r.2)

/-! ## Allocation registry (§4.3) -/

/-- Modelled from the spec: bucket lookup returning the record with
matching `ptr`, or absent (§4.3 `get`). -/
def gc_allocation_map_get (am : AllocationMap) (p : Nat) : Option Allocation :=
  am.allocs.find? (fun a => a.ptr == p)

/-- Modelled from the spec: `resize(new_capacity)` rehashes into
`next_prime(max(new_capacity, min_capacity))` and recomputes the sweep
limit from the sweep factor and the new capacity (§4.3); rehashing does
not reorder the flattened record list in this embedding.  The spec
states a ceiling for the recomputation, but the construction-time test
oracle (`test_gc_allocation_map_new_delete`) fixes truncation, which is
used uniformly. -/
def gc_allocation_map_resize (am : AllocationMap) (new_capacity : Nat) : AllocationMap :=
  let cap := next_prime (max new_capacity am.min_capacity)
  { am with capacity := cap, sweep_limit := ratioMulFloor am.sweep_factor cap }

/-- Modelled from the spec: registry construction sends both capacity
arguments through `next_prime`, keeps `capacity ≥ min_capacity`, starts
empty and derives `sweep_limit` from the sweep factor and capacity
(§3, §8 S1); truncation per the test oracle. -/
def gc_allocation_map_new (min_capacity capacity : Nat)
    (sweep_factor downsize_factor upsize_factor : Ratio) : AllocationMap :=
  let mc := next_prime min_capacity
  let c0 := next_prime capacity
  let c := if c0 < mc then mc else c0
  { capacity := c
    min_capacity := mc
    size := 0
    sweep_limit := ratioMulFloor sweep_factor c
    sweep_factor := sweep_factor
    downsize_factor := downsize_factor
    upsize_factor := upsize_factor
    allocs := [] }

/-- Modelled from the spec: `put` updates `size` and `dtor` in place
when the pointer is known, otherwise prepends a fresh untagged record
and increments `size`; after an insertion, if the load factor exceeds
`upsize_factor` the table grows to `next_prime(2·capacity)` (§4.3).
Returns the authoritative record alongside the new map. -/
def gc_allocation_map_put (am : AllocationMap) (p size : Nat) (dtor : Option Nat) :
    AllocationMap × Allocation :=
  match gc_allocation_map_get am p with
  | some a0 =>
    let a1 : Allocation := { a0 with size := size, dtor := dtor }
    ({ am with allocs := modifyOnPtr am.allocs p (fun a => { a with size := size, dtor := dtor }) },
     a1)
  | none =>
    let a1 : Allocation := ⟨p, size, GC_TAG_NONE, dtor⟩
    let am1 := { am with allocs := a1 :: am.allocs, size := am.size + 1 }
    let am2 :=
      if ratioLtFrac am1.upsize_factor am1.size am1.capacity then
        gc_allocation_map_resize am1 (next_prime (2 * am1.capacity))
      else am1
    (am2, a1)

/-- Modelled from the spec: `remove` unlinks the matching record and
decrements `size`; with `allow_shrink`, a load factor below
`downsize_factor` rehashes into `next_prime(capacity/2)`, never below
`min_capacity` (§4.3). -/
def gc_allocation_map_remove (am : AllocationMap) (p : Nat) (allow_shrink : Bool) :
    AllocationMap :=
  let r := removeOnPtr am.allocs p
  let am1 := { am with allocs := r.1, size := if r.2 then am.size - 1 else am.size }
  if allow_shrink && fracLtRatio am1.size am1.capacity am1.downsize_factor then
    gc_allocation_map_resize am1 (next_prime (am1.capacity / 2))
  else am1

/-! ## Root & stack scanner (§4.4) -/

/-- Set the `MARK` bit. -/
def setMark (t : Tag) : Tag := { t with mark := true }

/-- Clear the `MARK` bit. -/
def clearMark (t : Tag) : Tag := { t with mark := false }

/-- Machine word size in bytes. -/
def PTRSIZE : Nat := 8

/-- The word values stored in the interior `[ptr, ptr + size)` of a
record, one per word-aligned position, as read from the heap `mem`. -/
def interiorWords (mem : Nat → Nat) (a : Allocation) : List Nat :=
  (List.range (a.size / PTRSIZE)).map (fun k => mem (a.ptr + PTRSIZE * k))

/-- Number of unmarked records, the termination measure of marking. -/
def unmarkedCount (l : List Allocation) : Nat :=
  (l.filter (fun a => !a.tag.mark)).length

theorem find?_mem_of_eq {l : List Allocation} {p : Nat} {a : Allocation}
    (h : l.find? (fun x => x.ptr == p) = some a) : a ∈ l ∧ a.ptr = p := by
  have hm := List.mem_of_find?_eq_some h
  have hp := List.find?_some h
  exact ⟨hm, by simpa using hp⟩

theorem unmarkedCount_modify_lt {l : List Allocation} {p : Nat} {a : Allocation}
    (h : l.find? (fun x => x.ptr == p) = some a) (hm : a.tag.mark = false) :
    unmarkedCount (modifyOnPtr l p (fun x => { x with tag := setMark x.tag })) <
      unmarkedCount l := by
  induction l with
  | nil => simp at h
  | cons b rest ih =>
    by_cases hb : b.ptr = p
    · rw [List.find?_cons_of_pos _ (by simpa using hb)] at h
      cases h
      simp only [modifyOnPtr, if_pos hb, unmarkedCount, List.filter, setMark, hm]
      simp [Nat.lt_succ_iff]
    · rw [List.find?_cons_of_neg _ (by simpa using hb)] at h
      have := ih h
      simp only [modifyOnPtr, if_neg hb, unmarkedCount, List.filter] at *
      cases hbm : !b.tag.mark <;> simp [hbm] at * <;> omega

/-- Modelled from the spec: the mark helper `mark_alloc` (§4.4) run on an
explicit depth-first worklist.  A candidate word that is the `ptr` of an
unmarked registry record gets its `MARK` bit set and, unless the record
is `LEAF`, the record's interior words are pushed as further candidates;
any other candidate is ignored. -/
def gc_mark_worklist (mem : Nat → Nat) : AllocationMap → List Nat → AllocationMap
  | am, [] => am
  | am, c :: ws =>
    match h : gc_allocation_map_get am c with
    | none => gc_mark_worklist mem am ws
    | some a =>
      if hm : a.tag.mark then gc_mark_worklist mem am ws
      else
        let am' := { am with
          allocs := modifyOnPtr am.allocs c (fun x => { x with tag := setMark x.tag }) }
        let interior := if a.tag.leaf then [] else interiorWords mem a
        gc_mark_worklist mem am' (interior ++ ws)
termination_by am ws => (unmarkedCount am.allocs, ws.length)
decreasing_by
  · exact Prod.Lex.right _ (Nat.lt_succ_self _)
  · exact Prod.Lex.right _ (Nat.lt_succ_self _)
  · exact Prod.Lex.left _ _
      (unmarkedCount_modify_lt h (by simpa using hm))

/-- The pointers of the records bearing `ROOT`. -/
def rootPtrs (am : AllocationMap) : List Nat :=
  (am.allocs.filter (fun a => a.tag.root)).map (fun a => a.ptr)

/-- Modelled from the spec: `mark_roots` marks every record bearing
`ROOT` at the beginning of the cycle (§4.4), propagating through
interiors via the mark helper. -/
def gc_mark_roots (mem : Nat → Nat) (gc : GarbageCollector) : GarbageCollector :=
  { gc with allocs := gc_mark_worklist mem gc.allocs (rootPtrs gc.allocs) }

/-- Modelled from the spec: `mark_stack` treats every word read from the
scanned stack range as a potential pointer and feeds it to the mark
helper (§4.4); the words read are the parameter `stack`. -/
def gc_mark_stack (mem : Nat → Nat) (stack : List Nat) (gc : GarbageCollector) :
    GarbageCollector :=
  { gc with allocs := gc_mark_worklist mem gc.allocs stack }

/-- Modelled from the spec: composite `mark` is `mark_roots` then
`mark_stack` (§4.4). -/
def gc_mark (mem : Nat → Nat) (stack : List Nat) (gc : GarbageCollector) :
    GarbageCollector :=
  gc_mark_stack mem stack (gc_mark_roots mem gc)

/-! ## Sweep (§4.5) -/

/-- Result of a sweep: the new registry, the accumulated byte total, the
destructor invocations `(dtor, ptr)` in call order and the raw-freed
addresses in free order. -/
structure SweepResult where
  am : AllocationMap
  reclaimed : Nat
  dtorCalls : List (Nat × Nat)
  rawFreed : List Nat
deriving DecidableEq, Repr

/-- The destructor invocation a record contributes when collected. -/
def dtorCallsOf (a : Allocation) : List (Nat × Nat) :=
  match a.dtor with
  | some d => [(d, a.ptr)]
  | none => []

/-- Modelled from the spec: the single sweep pass (§4.5).  The walk list
is the registry content at the start of the pass; a marked record merely
has `MARK` cleared in place, an unmarked `ROOT` record is skipped, and
any other record has its destructor invoked, its `ptr` raw-freed, its
`size` accumulated and is removed with `allow_shrink = false`. -/
def gc_sweep_loop : AllocationMap → List Allocation → SweepResult
  | am, [] => ⟨am, 0, [], []⟩
  | am, a :: rest =>
    if a.tag.mark then
      gc_sweep_loop
        { am with allocs := modifyOnPtr am.allocs a.ptr (fun x => { x with tag := clearMark x.tag }) }
        rest
    else if a.tag.root then gc_sweep_loop am rest
    else
      let r := gc_sweep_loop (gc_allocation_map_remove am a.ptr false) rest
      ⟨r.am, a.size + r.reclaimed, dtorCallsOf a ++ r.dtorCalls, a.ptr :: r.rawFreed⟩

/-- Modelled from the spec: after the sweep walk, a load factor below
`downsize_factor` rehashes down to `next_prime(capacity/2)`, never below
`min_capacity` (§4.5). -/
def gc_allocation_map_shrink_to_fit (am : AllocationMap) : AllocationMap :=
  if fracLtRatio am.size am.capacity am.downsize_factor then
    gc_allocation_map_resize am (next_prime (am.capacity / 2))
  else am

/-- Sweep of a registry: the walk over all records followed by the
amortized shrink (§4.5). -/
def gc_sweep_map (am : AllocationMap) : SweepResult :=
  let r := gc_sweep_loop am am.allocs
  { r with am := gc_allocation_map_shrink_to_fit r.am }

/-- `sweep()` on the collector; returns the new collector state together
with the sweep report. -/
def gc_sweep (gc : GarbageCollector) : GarbageCollector × SweepResult :=
  let r := gc_sweep_map gc.allocs
  ({ gc with allocs := r.am }, r)

/-! ## Collector driver (§4.5) -/

/-- Modelled from the spec: `run()` is an unconditional mark-then-sweep
returning the bytes reclaimed (§4.5); the sweep report is kept so that
callers can observe destructor invocations. -/
def gc_run_ext (mem : Nat → Nat) (stack : List Nat) (gc : GarbageCollector) :
    GarbageCollector × SweepResult :=
  gc_sweep (gc_mark mem stack gc)

/-- `run()` returning only the reclaimed byte count, the C signature. -/
def gc_run (mem : Nat → Nat) (stack : List Nat) (gc : GarbageCollector) :
    GarbageCollector × Nat :=
  let r := gc_run_ext mem stack gc
  (r.1, r.2.reclaimed)

/-- Modelled from the spec: the collection trigger — after inserting a
new record, an allocator entry runs a full collection when
`size > sweep_limit` and the collector is not paused (§4.5).  Per the
spec's stated contract, the just-created pointer is protected by living
in a scanned driver-local slot, so it is appended to the scanned stack
words. -/
def gc_trigger (mem : Nat → Nat) (stack : List Nat) (newptr : Nat)
    (gc : GarbageCollector) : GarbageCollector × List (Nat × Nat) :=
  if gc.allocs.sweep_limit < gc.allocs.size && !gc.paused then
    let r := gc_run_ext mem (stack ++ [newptr]) gc
    (r.1, r.2.dtorCalls)
  else (gc, [])

/-- Modelled from the spec: `malloc_ext(size, dtor)` — if the raw
allocator returned nil, return nil and allocate nothing; otherwise
register the returned address with the destructor and run the trigger
check (§4.5).  `raw` is the address the raw allocator returned; the
result is the new state, the returned pointer and the destructor
invocations of a triggered collection. -/
def gc_malloc_ext (mem : Nat → Nat) (stack : List Nat) (gc : GarbageCollector)
    (raw size : Nat) (dtor : Option Nat) : GarbageCollector × Nat × List (Nat × Nat) :=
  if raw = 0 then (gc, 0, [])
  else
    let am1 := (gc_allocation_map_put gc.allocs raw size dtor).1
    let t := gc_trigger mem stack raw { gc with allocs := am1 }
    (t.1, raw, t.2)

/-- Modelled from the spec: `malloc(size)` registers with no destructor
(§4.5). -/
def gc_malloc (mem : Nat → Nat) (stack : List Nat) (gc : GarbageCollector)
    (raw size : Nat) : GarbageCollector × Nat × List (Nat × Nat) :=
  gc_malloc_ext mem stack gc raw size none

/-- Modelled from the spec: `make_static(ptr)` sets `ROOT` on the record
identified by `ptr`, a no-op when the address is not managed (§4.4,
§4.5).  The C prototype returns `void*`, but the spec does not state the
returned value, so only the state effect is embedded. -/
def gc_make_static (gc : GarbageCollector) (p : Nat) : GarbageCollector :=
  { gc with allocs := { gc.allocs with
      allocs := modifyOnPtr gc.allocs.allocs p (fun x => { x with tag := { x.tag with root := true } }) } }

/-- Modelled from the spec: `malloc_static(size, dtor)` is `malloc_ext`
followed by setting `ROOT` on the new record (§4.5). -/
def gc_malloc_static (mem : Nat → Nat) (stack : List Nat) (gc : GarbageCollector)
    (raw size : Nat) (dtor : Option Nat) : GarbageCollector × Nat × List (Nat × Nat) :=
  let r := gc_malloc_ext mem stack gc raw size dtor
  (gc_make_static r.1 r.2.1, r.2.1, r.2.2)

/-- Modelled from the spec: `calloc(count, size)` is the zero-initialized
variant registering `count · size` bytes (§4.5; the registered size is
pinned by `test_gc_basic_alloc_free`). -/
def gc_calloc (mem : Nat → Nat) (stack : List Nat) (gc : GarbageCollector)
    (raw count size : Nat) : GarbageCollector × Nat × List (Nat × Nat) :=
  gc_malloc_ext mem stack gc raw (count * size) none

/-- Modelled from the spec: `calloc_ext(count, size, dtor)` (§4.5). -/
def gc_calloc_ext (mem : Nat → Nat) (stack : List Nat) (gc : GarbageCollector)
    (raw count size : Nat) (dtor : Option Nat) : GarbageCollector × Nat × List (Nat × Nat) :=
  gc_malloc_ext mem stack gc raw (count * size) dtor

/-- Modelled from the spec: `strdup(s)` allocates `strlen(s)+1` bytes and
marks the record `LEAF` (§4.5); `len` is the length of the source
string. -/
def gc_strdup (mem : Nat → Nat) (stack : List Nat) (gc : GarbageCollector)
    (raw len : Nat) : GarbageCollector × Nat × List (Nat × Nat) :=
  if raw = 0 then (gc, 0, [])
  else
    let r := gc_malloc mem stack gc raw (len + 1)
    ({ r.1 with allocs := { r.1.allocs with
        allocs := modifyOnPtr r.1.allocs.allocs raw (fun x => { x with tag := { x.tag with leaf := true } }) } },
     r.2.1, r.2.2)

/-- Modelled from the spec: `free(ptr)` looks the record up (a foreign or
null pointer is silently tolerated), invokes the destructor, raw-frees
`ptr` and removes the record with `allow_shrink = true` (§4.5). -/
def gc_free (gc : GarbageCollector) (p : Nat) : GarbageCollector × List (Nat × Nat) :=
  match gc_allocation_map_get gc.allocs p with
  | none => (gc, [])
  | some a =>
    ({ gc with allocs := gc_allocation_map_remove gc.allocs p true }, dtorCallsOf a)

/-- Modelled from the spec: `realloc(ptr, size)` — nil `ptr` behaves as
`malloc`; an unknown pointer is refused with nil and no registry
mutation; a raw reallocation at the same address updates the record's
size in place; a move removes the old record without invoking its
destructor and inserts a fresh record at the new address carrying the
same `dtor` and tag bits (§4.5).  `rawNew` is the address the raw
`realloc` returned (`0` for raw OOM, §7). -/
def gc_realloc (mem : Nat → Nat) (stack : List Nat) (gc : GarbageCollector)
    (p rawNew size : Nat) : GarbageCollector × Nat × List (Nat × Nat) :=
  if p = 0 then gc_malloc mem stack gc rawNew size
  else
    match gc_allocation_map_get gc.allocs p with
    | none => (gc, 0, [])
    | some a =>
      if rawNew = 0 then (gc, 0, [])
      else if rawNew = p then
        ({ gc with allocs := { gc.allocs with
            allocs := modifyOnPtr gc.allocs.allocs p (fun x => { x with size := size }) } },
         p, [])
      else
        let am1 := gc_allocation_map_remove gc.allocs p true
        let am2 := (gc_allocation_map_put am1 rawNew size a.dtor).1
        let am3 := { am2 with allocs := modifyOnPtr am2.allocs rawNew (fun x => { x with tag := a.tag }) }
        ({ gc with allocs := am3 }, rawNew, [])

/-- Modelled from the spec: `pause` suppresses the allocator-driven
trigger (§4.5). -/
def gc_pause (gc : GarbageCollector) : GarbageCollector := { gc with paused := true }

/-- Modelled from the spec: `resume` re-enables the allocator-driven
trigger (§4.5). -/
def gc_resume (gc : GarbageCollector) : GarbageCollector := { gc with paused := false }

/-- Modelled from the spec: `unroot_roots` clears `ROOT` on every record
(§4.4). -/
def gc_unroot_roots (gc : GarbageCollector) : GarbageCollector :=
  { gc with allocs := { gc.allocs with
      allocs := gc.allocs.allocs.map (fun x => { x with tag := { x.tag with root := false } }) } }

/-- Modelled from the spec: `start_ext` records `bos` and the
configuration and builds the registry; `min_capacity` comes from
`min_size` and the initial capacity from `initial_size`, both sent
through `next_prime` by the registry constructor (§4.5, `src/gc.h`
parameter order). -/
def gc_start_ext (bos initial_size min_size : Nat)
    (downsize_load_factor upsize_load_factor sweep_factor : Ratio) : GarbageCollector :=
  { allocs := gc_allocation_map_new min_size initial_size sweep_factor
      downsize_load_factor upsize_load_factor
    paused := false
    bos := bos
    min_size := min_size }

/-- Modelled from the spec: `start` uses the defaults `initial=1024`,
`min=1024`, `downsize=0.2`, `upsize=0.8`, `sweep=0.5` (§4.5). -/
def gc_start (bos : Nat) : GarbageCollector :=
  gc_start_ext bos 1024 1024 ⟨1, 5⟩ ⟨4, 5⟩ ⟨1, 2⟩

/-! ## Specification-side predicates and the operation trace -/

/-- What the sweep pass does to one walked record: a marked record
survives with `MARK` cleared, an unmarked root survives untouched, any
other record is collected. -/
def survivorFn (a : Allocation) : Option Allocation :=
  if a.tag.mark then some { a with tag := clearMark a.tag }
  else if a.tag.root then some a
  else none

/-- A record the sweep pass collects: `MARK` clear and `ROOT` clear. -/
def collectedP (a : Allocation) : Bool := !a.tag.mark && !a.tag.root

/-- The records a sweep starting from record list `l` collects. -/
def collectedOf (l : List Allocation) : List Allocation := l.filter collectedP

/-- The destructor invocations a list of collected records produces, in
list order: one `(dtor, ptr)` pair per record carrying a destructor. -/
def dtorCallsSpec (l : List Allocation) : List (Nat × Nat) :=
  l.filterMap (fun a => a.dtor.map (fun d => (d, a.ptr)))

/-- The full statement of what one `sweep()` does to a collector, used
by the single-pass theorem and its witness: survivors are exactly the
image of `survivorFn` over the walked records (marked records survive
with `MARK` cleared, unmarked roots survive untouched, everything else
is removed); the return value is the total size of the collected
records; each collected record's destructor is invoked with its `ptr`
and its `ptr` is raw-freed; `size` drops by the number of collected
records; and when no record was marked the remaining `size` is the
number of `ROOT` records. -/
def sweepSpec (gc : GarbageCollector) : Prop :=
  (gc_sweep gc).2.am.allocs = gc.allocs.allocs.filterMap survivorFn ∧
  (gc_sweep gc).1.allocs.allocs = gc.allocs.allocs.filterMap survivorFn ∧
  (gc_sweep gc).2.reclaimed = ((collectedOf gc.allocs.allocs).map (fun a => a.size)).sum ∧
  (gc_sweep gc).2.dtorCalls = dtorCallsSpec (collectedOf gc.allocs.allocs) ∧
  (gc_sweep gc).2.rawFreed = (collectedOf gc.allocs.allocs).map (fun a => a.ptr) ∧
  (gc_sweep gc).2.am.size = gc.allocs.size - (collectedOf gc.allocs.allocs).length ∧
  ((∀ a ∈ gc.allocs.allocs, a.tag.mark = false) →
    gc.allocs.size = gc.allocs.allocs.length →
    (gc_sweep gc).2.am.size = (gc.allocs.allocs.filter (fun a => a.tag.root)).length)

/-- Concrete registry exercising all three sweep cases: a marked record,
an unmarked root and an unmarked non-root with a destructor. -/
def sweepWitnessMap : AllocationMap :=
  ⟨11, 11, 3, 5, ⟨1, 2⟩, ⟨0, 1⟩, ⟨4, 5⟩,
    [⟨10, 4, ⟨true, false, false⟩, none⟩,
     ⟨20, 5, ⟨false, true, false⟩, some 3⟩,
     ⟨30, 7, ⟨false, false, false⟩, some 9⟩]⟩

/-- Collector owning `sweepWitnessMap`. -/
def sweepWitnessGC : GarbageCollector := ⟨sweepWitnessMap, false, 0, 8⟩

/-- Collector with a single managed record at address 8 bearing both the
`ROOT` and `LEAF` bits and a destructor, for exercising the
tag-carrying move path of `realloc`. -/
def reallocWitnessGC : GarbageCollector :=
  ⟨⟨11, 11, 1, 5, ⟨1, 2⟩, ⟨1, 5⟩, ⟨4, 5⟩, [⟨8, 4, ⟨false, true, true⟩, some 7⟩]⟩, false, 0, 8⟩

/-- An empty, freshly started small collector. -/
def reallocNilWitnessGC : GarbageCollector :=
  gc_start_ext 0 8 8 ⟨1, 5⟩ ⟨4, 5⟩ ⟨1, 2⟩


/-- One mark-phase evolution step of a single record: everything but the
`MARK` bit is preserved, and a set `MARK` bit stays set. -/
def tagStep (a b : Allocation) : Prop :=
  b.ptr = a.ptr ∧ b.size = a.size ∧ b.dtor = a.dtor ∧
  b.tag.root = a.tag.root ∧ b.tag.leaf = a.tag.leaf ∧
  (a.tag.mark = true → b.tag.mark = true)

/-- Mark-phase evolution of a whole registry: every scalar field is
unchanged and the record list evolves pointwise by `tagStep` — the mark
phase only ever sets `MARK` bits. -/
def markEvolves (am am' : AllocationMap) : Prop :=
  am'.capacity = am.capacity ∧ am'.min_capacity = am.min_capacity ∧
  am'.size = am.size ∧ am'.sweep_limit = am.sweep_limit ∧
  am'.sweep_factor = am.sweep_factor ∧ am'.downsize_factor = am.downsize_factor ∧
  am'.upsize_factor = am.upsize_factor ∧
  List.Forall₂ tagStep am.allocs am'.allocs

/-- What a whole collection cycle preserves of a record that survives
it: address, size, `ROOT` bit and destructor. -/
def keepStep (a b : Allocation) : Prop :=
  b.ptr = a.ptr ∧ b.size = a.size ∧ b.tag.root = a.tag.root ∧ b.dtor = a.dtor

/-- The state after a batch of `malloc_static(size, dtor)` calls, one
per raw address, as in `test_gc_static_allocation`. -/
def staticAllocs (mem : Nat → Nat) (stack : List Nat) (size : Nat) (d : Nat)
    (gc : GarbageCollector) (raws : List Nat) : GarbageCollector :=
  raws.foldl (fun g r => (gc_malloc_static mem stack g r size (some d)).1) gc

/-- 256 distinct non-null raw addresses. -/
def staticWitnessRaws : List Nat := (List.range 256).map (fun i => 8 * i + 8)

/-- A candidate pointer the mark helper would ignore: either it is not a
managed address, or its record is already marked. -/
def markedOrAbsent (am : AllocationMap) (c : Nat) : Bool :=
  match gc_allocation_map_get am c with
  | some a => a.tag.mark
  | none => true

/-- The sweep-limit invariant the registry maintains: `sweep_limit` is
the truncation of `sweep_factor · capacity` (§3 (I5), with the ceiling
corrected to truncation by the construction-time test oracle). -/
def sweepInv (am : AllocationMap) : Prop :=
  am.sweep_limit = ratioMulFloor am.sweep_factor am.capacity

/-- Every live record has a positive size (§3 invariant (d)). -/
def sizePos (am : AllocationMap) : Prop := ∀ a ∈ am.allocs, 0 < a.size

/-- A public collector operation, carrying the raw-allocator responses
and (for entries that may collect) the heap and scanned-stack views the
collection would read. -/
inductive GCOp where
  | opMalloc (mem : Nat → Nat) (stack : List Nat) (raw size : Nat)
  | opMallocExt (mem : Nat → Nat) (stack : List Nat) (raw size : Nat) (dtor : Option Nat)
  | opMallocStatic (mem : Nat → Nat) (stack : List Nat) (raw size : Nat) (dtor : Option Nat)
  | opCalloc (mem : Nat → Nat) (stack : List Nat) (raw count size : Nat)
  | opCallocExt (mem : Nat → Nat) (stack : List Nat) (raw count size : Nat) (dtor : Option Nat)
  | opStrdup (mem : Nat → Nat) (stack : List Nat) (raw len : Nat)
  | opRealloc (mem : Nat → Nat) (stack : List Nat) (p rawNew size : Nat)
  | opFree (p : Nat)
  | opRun (mem : Nat → Nat) (stack : List Nat)
  | opPause
  | opResume
  | opMakeStatic (p : Nat)

/-- State transition of one public operation (return values dropped). -/
def applyOp (gc : GarbageCollector) : GCOp → GarbageCollector
  | .opMalloc mem stack raw size => (gc_malloc mem stack gc raw size).1
  | .opMallocExt mem stack raw size dtor => (gc_malloc_ext mem stack gc raw size dtor).1
  | .opMallocStatic mem stack raw size dtor => (gc_malloc_static mem stack gc raw size dtor).1
  | .opCalloc mem stack raw count size => (gc_calloc mem stack gc raw count size).1
  | .opCallocExt mem stack raw count size dtor => (gc_calloc_ext mem stack gc raw count size dtor).1
  | .opStrdup mem stack raw len => (gc_strdup mem stack gc raw len).1
  | .opRealloc mem stack p rawNew size => (gc_realloc mem stack gc p rawNew size).1
  | .opFree p => (gc_free gc p).1
  | .opRun mem stack => (gc_run mem stack gc).1
  | .opPause => gc_pause gc
  | .opResume => gc_resume gc
  | .opMakeStatic p => gc_make_static gc p

/-- The collector state reached from `start_ext` by a sequence of public
operations. -/
def runOps (gc : GarbageCollector) (ops : List GCOp) : GarbageCollector :=
  ops.foldl applyOp gc

/-- The positivity side condition of one operation: every size an
allocator entry registers under it is positive.  (`strdup` always
registers `len + 1 > 0` bytes and the remaining operations register
nothing.) -/
def opSizePos : GCOp → Prop
  | .opMalloc _ _ _ size => 0 < size
  | .opMallocExt _ _ _ size _ => 0 < size
  | .opMallocStatic _ _ _ size _ => 0 < size
  | .opCalloc _ _ _ count size => 0 < count * size
  | .opCallocExt _ _ _ count size _ => 0 < count * size
  | .opRealloc _ _ _ _ size => 0 < size
  | _ => True

/-- A concrete operation sequence whose allocation requests are all
positive. -/
def sizePosWitnessOps : List GCOp :=
  [.opMalloc (fun _ => 0) [] 8 4,
   .opMallocStatic (fun _ => 0) [] 16 2 (some 1),
   .opFree 8,
   .opRun (fun _ => 0) []]

/-! ## Lemmas on the record-list primitives -/

theorem modifyOnPtr_of_forall_ne {l : List Allocation} {p : Nat}
    {f : Allocation → Allocation} (h : ∀ a ∈ l, a.ptr ≠ p) :
    modifyOnPtr l p f = l := by
  induction l with
  | nil => rfl
  | cons a rest ih =>
    simp only [modifyOnPtr, if_neg (h a (by simp))]
    rw [ih (fun x hx => h x (by simp [hx]))]

theorem modifyOnPtr_append_left {pre l : List Allocation} {p : Nat}
    {f : Allocation → Allocation} (h : ∀ a ∈ pre, a.ptr ≠ p) :
    modifyOnPtr (pre ++ l) p f = pre ++ modifyOnPtr l p f := by
  induction pre with
  | nil => rfl
  | cons a rest ih =>
    simp only [List.cons_append, modifyOnPtr, if_neg (h a (by simp))]
    exact congrArg (fun t => a :: t) (ih (fun x hx => h x (by simp [hx])))

theorem modifyOnPtr_cons_self {a : Allocation} {l : List Allocation} {p : Nat}
    {f : Allocation → Allocation} (h : a.ptr = p) :
    modifyOnPtr (a :: l) p f = f a :: l := by
  simp [modifyOnPtr, h]

theorem find?_modifyOnPtr_ne {l : List Allocation} {p q : Nat}
    {f : Allocation → Allocation} (hpq : p ≠ q) (hf : ∀ a, (f a).ptr = a.ptr) :
    (modifyOnPtr l p f).find? (fun x => x.ptr == q) = l.find? (fun x => x.ptr == q) := by
  induction l with
  | nil => rfl
  | cons a rest ih =>
    by_cases hp : a.ptr = p
    · rw [modifyOnPtr_cons_self hp]
      rw [List.find?_cons_of_neg _ (by simp [hf a, hp, hpq]),
        List.find?_cons_of_neg _ (by simp [hp, hpq])]
    · simp only [modifyOnPtr, if_neg hp]
      by_cases hq : a.ptr = q
      · rw [List.find?_cons_of_pos _ (by simpa using hq),
          List.find?_cons_of_pos _ (by simpa using hq)]
      · rw [List.find?_cons_of_neg _ (by simpa using hq),
          List.find?_cons_of_neg _ (by simpa using hq)]
        exact ih

theorem find?_modifyOnPtr_self {l : List Allocation} {p : Nat}
    {f : Allocation → Allocation} {a : Allocation} (hf : ∀ x, (f x).ptr = x.ptr)
    (h : l.find? (fun x => x.ptr == p) = some a) :
    (modifyOnPtr l p f).find? (fun x => x.ptr == p) = some (f a) := by
  induction l with
  | nil => simp at h
  | cons b rest ih =>
    by_cases hb : b.ptr = p
    · rw [List.find?_cons_of_pos _ (by simpa using hb)] at h
      cases h
      rw [modifyOnPtr_cons_self hb, List.find?_cons_of_pos _ (by simpa [hf] using hb)]
    · rw [List.find?_cons_of_neg _ (by simpa using hb)] at h
      simp only [modifyOnPtr, if_neg hb]
      rw [List.find?_cons_of_neg _ (by simpa using hb)]
      exact ih h

theorem map_ptr_modifyOnPtr {l : List Allocation} {p : Nat}
    {f : Allocation → Allocation} (hf : ∀ a, (f a).ptr = a.ptr) :
    (modifyOnPtr l p f).map (fun a => a.ptr) = l.map (fun a => a.ptr) := by
  induction l with
  | nil => rfl
  | cons a rest ih =>
    by_cases hp : a.ptr = p
    · rw [modifyOnPtr_cons_self hp]; simp [hf a]
    · simp only [modifyOnPtr, if_neg hp, List.map_cons, ih]

theorem modifyOnPtr_forall₂ {l : List Allocation} {p : Nat}
    {f : Allocation → Allocation} {R : Allocation → Allocation → Prop}
    (hrefl : ∀ a, R a a) (hf : ∀ a, R a (f a)) :
    List.Forall₂ R l (modifyOnPtr l p f) := by
  induction l with
  | nil => exact List.Forall₂.nil
  | cons a rest ih =>
    by_cases hp : a.ptr = p
    · rw [modifyOnPtr_cons_self hp]
      exact List.Forall₂.cons (hf a) (List.forall₂_same.mpr (fun x _ => hrefl x))
    · simp only [modifyOnPtr, if_neg hp]
      exact List.Forall₂.cons (hrefl a) ih

theorem removeOnPtr_of_forall_ne {l : List Allocation} {p : Nat}
    (h : ∀ a ∈ l, a.ptr ≠ p) : removeOnPtr l p = (l, false) := by
  induction l with
  | nil => rfl
  | cons a rest ih =>
    simp only [removeOnPtr, if_neg (h a (by simp))]
    rw [ih (fun x hx => h x (by simp [hx]))]

theorem removeOnPtr_append {pre rest : List Allocation} {a : Allocation} {p : Nat}
    (hpre : ∀ x ∈ pre, x.ptr ≠ p) (ha : a.ptr = p) :
    removeOnPtr (pre ++ a :: rest) p = (pre ++ rest, true) := by
  induction pre with
  | nil => simp [removeOnPtr, ha]
  | cons b pre' ih =>
    simp only [List.cons_append, removeOnPtr, if_neg (hpre b (by simp))]
    rw [show removeOnPtr (pre'.append (a :: rest)) p
        = removeOnPtr (pre' ++ a :: rest) p from rfl,
      ih (fun x hx => hpre x (by simp [hx]))]

theorem removeOnPtr_sublist (l : List Allocation) (p : Nat) :
    (removeOnPtr l p).1.Sublist l := by
  induction l with
  | nil => exact List.Sublist.refl _
  | cons a rest ih =>
    by_cases hp : a.ptr = p
    · simp only [removeOnPtr, if_pos hp]
      exact List.sublist_cons_self a rest
    · simp only [removeOnPtr, if_neg hp]
      exact List.Sublist.cons₂ a ih

theorem find?_removeOnPtr_ne {l : List Allocation} {p q : Nat} (hpq : p ≠ q) :
    (removeOnPtr l p).1.find? (fun x => x.ptr == q) = l.find? (fun x => x.ptr == q) := by
  induction l with
  | nil => rfl
  | cons a rest ih =>
    by_cases hp : a.ptr = p
    · simp only [removeOnPtr, if_pos hp]
      rw [List.find?_cons_of_neg _ (by simp [hp, hpq])]
    · simp only [removeOnPtr, if_neg hp]
      by_cases hq : a.ptr = q
      · rw [List.find?_cons_of_pos _ (by simpa using hq),
          List.find?_cons_of_pos _ (by simpa using hq)]
      · rw [List.find?_cons_of_neg _ (by simpa using hq),
          List.find?_cons_of_neg _ (by simpa using hq)]
        exact ih

theorem get_eq_none_iff {am : AllocationMap} {p : Nat} :
    gc_allocation_map_get am p = none ↔ ∀ a ∈ am.allocs, a.ptr ≠ p := by
  simp [gc_allocation_map_get, List.find?_eq_none]

/-! ## The `tagStep` algebra -/

theorem tagStep_refl (a : Allocation) : tagStep a a :=
  ⟨rfl, rfl, rfl, rfl, rfl, fun h => h⟩

theorem tagStep_trans {a b c : Allocation} (h₁ : tagStep a b) (h₂ : tagStep b c) :
    tagStep a c := by
  obtain ⟨p₁, s₁, d₁, r₁, l₁, m₁⟩ := h₁
  obtain ⟨p₂, s₂, d₂, r₂, l₂, m₂⟩ := h₂
  exact ⟨p₂.trans p₁, s₂.trans s₁, d₂.trans d₁, r₂.trans r₁, l₂.trans l₁,
    fun h => m₂ (m₁ h)⟩

theorem forall₂_tagStep_refl (l : List Allocation) : List.Forall₂ tagStep l l :=
  List.forall₂_same.mpr (fun a _ => tagStep_refl a)

theorem forall₂_tagStep_trans {l₁ l₂ l₃ : List Allocation}
    (h₁ : List.Forall₂ tagStep l₁ l₂) (h₂ : List.Forall₂ tagStep l₂ l₃) :
    List.Forall₂ tagStep l₁ l₃ := by
  induction h₁ generalizing l₃ with
  | nil => cases h₂; exact List.Forall₂.nil
  | cons hab htl ih =>
    cases h₂ with
    | cons hbc htl' => exact List.Forall₂.cons (tagStep_trans hab hbc) (ih htl')

theorem forall₂_tagStep_map_ptr {l l' : List Allocation}
    (h : List.Forall₂ tagStep l l') :
    l'.map (fun a => a.ptr) = l.map (fun a => a.ptr) := by
  induction h with
  | nil => rfl
  | cons hab _ ih => simp [ih, hab.1]

theorem forall₂_tagStep_mem_right {l l' : List Allocation} {b : Allocation}
    (h : List.Forall₂ tagStep l l') (hb : b ∈ l') : ∃ a ∈ l, tagStep a b := by
  induction h with
  | nil => simp at hb
  | cons hab _ ih =>
    rcases List.mem_cons.mp hb with rfl | hb'
    · exact ⟨_, by simp, hab⟩
    · obtain ⟨a, ha, hs⟩ := ih hb'
      exact ⟨a, by simp [ha], hs⟩

theorem forall₂_tagStep_find? {l l' : List Allocation}
    (h : List.Forall₂ tagStep l l') (p : Nat) :
    (l.find? (fun x => x.ptr == p) = none ∧ l'.find? (fun x => x.ptr == p) = none) ∨
    ∃ a b, l.find? (fun x => x.ptr == p) = some a ∧
      l'.find? (fun x => x.ptr == p) = some b ∧ tagStep a b := by
  induction h with
  | nil => exact Or.inl ⟨rfl, rfl⟩
  | cons hab htl ih =>
    rename_i a b l₀ l₀'
    by_cases hp : a.ptr = p
    · refine Or.inr ⟨a, b, ?_, ?_, hab⟩
      · rw [List.find?_cons_of_pos _ (by simpa using hp)]
      · rw [List.find?_cons_of_pos _ (by simp [hab.1, hp])]
    · rw [List.find?_cons_of_neg _ (by simpa using hp),
        List.find?_cons_of_neg _ (by simp [hab.1, hp])]
      exact ih

/-! ## Unfolding equations of the mark worklist -/

theorem gc_mark_worklist_nil (mem : Nat → Nat) (am : AllocationMap) :
    gc_mark_worklist mem am [] = am := by
  rw [gc_mark_worklist]

theorem gc_mark_worklist_cons_none {mem : Nat → Nat} {am : AllocationMap}
    {c : Nat} {ws : List Nat} (hget : gc_allocation_map_get am c = none) :
    gc_mark_worklist mem am (c :: ws) = gc_mark_worklist mem am ws := by
  rw [gc_mark_worklist]
  split
  · rfl
  · rename_i a ha; simp [hget] at ha

theorem gc_mark_worklist_cons_marked {mem : Nat → Nat} {am : AllocationMap}
    {c : Nat} {ws : List Nat} {a : Allocation}
    (hget : gc_allocation_map_get am c = some a) (hm : a.tag.mark = true) :
    gc_mark_worklist mem am (c :: ws) = gc_mark_worklist mem am ws := by
  rw [gc_mark_worklist]
  split
  · rename_i ha; simp [hget] at ha
  · rename_i b hb
    rw [hget] at hb; cases hb
    rw [dif_pos hm]

theorem gc_mark_worklist_cons_unmarked {mem : Nat → Nat} {am : AllocationMap}
    {c : Nat} {ws : List Nat} {a : Allocation}
    (hget : gc_allocation_map_get am c = some a) (hm : a.tag.mark = false) :
    gc_mark_worklist mem am (c :: ws) =
      gc_mark_worklist mem
        { am with allocs := modifyOnPtr am.allocs c (fun x => { x with tag := setMark x.tag }) }
        ((if a.tag.leaf then [] else interiorWords mem a) ++ ws) := by
  rw [gc_mark_worklist]
  split
  · rename_i ha; simp [hget] at ha
  · rename_i b hb
    rw [hget] at hb; cases hb
    rw [dif_neg (by simp [hm])]

/-! ## The mark phase only sets `MARK` bits -/

theorem markEvolves_refl (am : AllocationMap) : markEvolves am am :=
  ⟨rfl, rfl, rfl, rfl, rfl, rfl, rfl, forall₂_tagStep_refl am.allocs⟩

theorem markEvolves_trans {am₁ am₂ am₃ : AllocationMap}
    (h₁ : markEvolves am₁ am₂) (h₂ : markEvolves am₂ am₃) : markEvolves am₁ am₃ := by
  obtain ⟨c₁, m₁, s₁, w₁, f₁, d₁, u₁, l₁⟩ := h₁
  obtain ⟨c₂, m₂, s₂, w₂, f₂, d₂, u₂, l₂⟩ := h₂
  exact ⟨c₂.trans c₁, m₂.trans m₁, s₂.trans s₁, w₂.trans w₁, f₂.trans f₁,
    d₂.trans d₁, u₂.trans u₁, forall₂_tagStep_trans l₁ l₂⟩

theorem markEvolves_mark_step (am : AllocationMap) (c : Nat) :
    markEvolves am
      { am with allocs := modifyOnPtr am.allocs c (fun x => { x with tag := setMark x.tag }) } :=
  ⟨rfl, rfl, rfl, rfl, rfl, rfl, rfl,
    modifyOnPtr_forall₂ tagStep_refl
      (fun a => ⟨rfl, rfl, rfl, rfl, rfl, fun _ => rfl⟩)⟩

theorem gc_mark_worklist_evolves (mem : Nat → Nat) (am : AllocationMap)
    (ws : List Nat) : markEvolves am (gc_mark_worklist mem am ws) := by
  induction am, ws using gc_mark_worklist.induct mem with
  | case1 am => rw [gc_mark_worklist_nil]; exact markEvolves_refl am
  | case2 am c ws hget ih => rw [gc_mark_worklist_cons_none hget]; exact ih
  | case3 am c ws a hget hm ih => rw [gc_mark_worklist_cons_marked hget hm]; exact ih
  | case4 am c ws a hget hm am' interior ih =>
    rw [gc_mark_worklist_cons_unmarked hget (by simpa using hm)]
    exact markEvolves_trans (markEvolves_mark_step am c) ih

theorem markedOrAbsent_mono {am am' : AllocationMap} {c : Nat}
    (h : markEvolves am am') (hm : markedOrAbsent am c = true) :
    markedOrAbsent am' c = true := by
  rcases forall₂_tagStep_find? h.2.2.2.2.2.2.2 c with ⟨h₁, h₂⟩ | ⟨a, b, h₁, h₂, hs⟩
  · simp [markedOrAbsent, gc_allocation_map_get, h₂]
  · simp only [markedOrAbsent, gc_allocation_map_get, h₁, h₂] at *
    exact hs.2.2.2.2.2 hm

theorem gc_mark_worklist_marks (mem : Nat → Nat) (am : AllocationMap)
    (ws : List Nat) :
    ∀ c ∈ ws, markedOrAbsent (gc_mark_worklist mem am ws) c = true := by
  induction am, ws using gc_mark_worklist.induct mem with
  | case1 am => simp
  | case2 am c ws hget ih =>
    intro c' hc'
    rw [gc_mark_worklist_cons_none hget]
    rcases List.mem_cons.mp hc' with rfl | hc'
    · exact markedOrAbsent_mono (gc_mark_worklist_evolves mem am ws)
        (by simp [markedOrAbsent, hget])
    · exact ih c' hc'
  | case3 am c ws a hget hm ih =>
    intro c' hc'
    rw [gc_mark_worklist_cons_marked hget hm]
    rcases List.mem_cons.mp hc' with rfl | hc'
    · exact markedOrAbsent_mono (gc_mark_worklist_evolves mem am ws)
        (by simp [markedOrAbsent, hget, hm])
    · exact ih c' hc'
  | case4 am c ws a hget hm am' interior ih =>
    intro c' hc'
    rw [gc_mark_worklist_cons_unmarked hget (by simpa using hm)]
    rcases List.mem_cons.mp hc' with rfl | hc'
    · refine markedOrAbsent_mono (gc_mark_worklist_evolves mem _ _) ?_
      have h2 := @find?_modifyOnPtr_self am.allocs c'
        (fun x => { x with tag := setMark x.tag }) a (fun x => rfl) hget
      simp only [markedOrAbsent, gc_allocation_map_get]
      rw [h2]
      simp [setMark]
    · exact ih c' (by simp [hc'])

theorem gc_mark_worklist_of_all_marked {mem : Nat → Nat} {am : AllocationMap}
    {ws : List Nat} (h : ∀ c ∈ ws, markedOrAbsent am c = true) :
    gc_mark_worklist mem am ws = am := by
  induction ws with
  | nil => exact gc_mark_worklist_nil mem am
  | cons c ws ih =>
    have hc := h c (by simp)
    match hget : gc_allocation_map_get am c with
    | none =>
      rw [gc_mark_worklist_cons_none hget]
      exact ih (fun x hx => h x (by simp [hx]))
    | some a =>
      have hm : a.tag.mark = true := by
        simpa [markedOrAbsent, hget] using hc
      rw [gc_mark_worklist_cons_marked hget hm]
      exact ih (fun x hx => h x (by simp [hx]))

theorem rootPtrs_list_eq {l l' : List Allocation} (h : List.Forall₂ tagStep l l') :
    (l'.filter (fun a => a.tag.root)).map (fun a => a.ptr) =
      (l.filter (fun a => a.tag.root)).map (fun a => a.ptr) := by
  induction h with
  | nil => rfl
  | @cons a b l₀ l₀' hab htl ih =>
    by_cases hr : a.tag.root
    · rw [List.filter_cons_of_pos (by simp [hab.2.2.2.1, hr]),
        List.filter_cons_of_pos (by simpa using hr)]
      simp [ih, hab.1]
    · rw [List.filter_cons_of_neg (by simp [hab.2.2.2.1, hr]),
        List.filter_cons_of_neg (by simpa using hr)]
      exact ih

theorem rootPtrs_of_markEvolves {am am' : AllocationMap} (h : markEvolves am am') :
    rootPtrs am' = rootPtrs am :=
  rootPtrs_list_eq h.2.2.2.2.2.2.2

theorem gc_mark_roots_evolves (mem : Nat → Nat) (gc : GarbageCollector) :
    markEvolves gc.allocs (gc_mark_roots mem gc).allocs :=
  gc_mark_worklist_evolves mem gc.allocs (rootPtrs gc.allocs)

theorem gc_mark_stack_evolves (mem : Nat → Nat) (stack : List Nat)
    (gc : GarbageCollector) :
    markEvolves gc.allocs (gc_mark_stack mem stack gc).allocs :=
  gc_mark_worklist_evolves mem gc.allocs stack

theorem gc_mark_evolves (mem : Nat → Nat) (stack : List Nat)
    (gc : GarbageCollector) :
    markEvolves gc.allocs (gc_mark mem stack gc).allocs :=
  markEvolves_trans (gc_mark_roots_evolves mem gc)
    (gc_mark_stack_evolves mem stack (gc_mark_roots mem gc))

theorem gc_ext {a b : GarbageCollector} (h₁ : a.allocs = b.allocs)
    (h₂ : a.paused = b.paused) (h₃ : a.bos = b.bos) (h₄ : a.min_size = b.min_size) :
    a = b := by
  cases a; cases b; simp_all

theorem gc_mark_roots_idem (mem : Nat → Nat) (gc : GarbageCollector) :
    gc_mark_roots mem (gc_mark_roots mem gc) = gc_mark_roots mem gc := by
  refine gc_ext ?_ rfl rfl rfl
  show gc_mark_worklist mem (gc_mark_roots mem gc).allocs
    (rootPtrs (gc_mark_roots mem gc).allocs) = (gc_mark_roots mem gc).allocs
  rw [rootPtrs_of_markEvolves (gc_mark_roots_evolves mem gc)]
  exact gc_mark_worklist_of_all_marked
    (fun c hc => gc_mark_worklist_marks mem gc.allocs (rootPtrs gc.allocs) c hc)

theorem gc_mark_stack_idem (mem : Nat → Nat) (stack : List Nat)
    (gc : GarbageCollector) :
    gc_mark_stack mem stack (gc_mark_stack mem stack gc) = gc_mark_stack mem stack gc := by
  refine gc_ext ?_ rfl rfl rfl
  exact gc_mark_worklist_of_all_marked
    (fun c hc => gc_mark_worklist_marks mem gc.allocs stack c hc)

theorem gc_mark_idem (mem : Nat → Nat) (stack : List Nat) (gc : GarbageCollector) :
    gc_mark mem stack (gc_mark mem stack gc) = gc_mark mem stack gc := by
  have hroots : gc_mark_roots mem (gc_mark mem stack gc) = gc_mark mem stack gc := by
    refine gc_ext ?_ rfl rfl rfl
    show gc_mark_worklist mem (gc_mark mem stack gc).allocs
      (rootPtrs (gc_mark mem stack gc).allocs) = (gc_mark mem stack gc).allocs
    rw [rootPtrs_of_markEvolves (gc_mark_evolves mem stack gc)]
    exact gc_mark_worklist_of_all_marked (fun c hc =>
      markedOrAbsent_mono
        (gc_mark_stack_evolves mem stack (gc_mark_roots mem gc))
        (gc_mark_worklist_marks mem gc.allocs (rootPtrs gc.allocs) c hc))
  show gc_mark_stack mem stack (gc_mark_roots mem (gc_mark mem stack gc)) = _
  rw [hroots]
  refine gc_ext ?_ rfl rfl rfl
  exact gc_mark_worklist_of_all_marked (fun c hc =>
    gc_mark_worklist_marks mem (gc_mark_roots mem gc).allocs stack c hc)

/-- Claim C8: the full mark phase (`gc_mark`, i.e. `gc_mark_roots`
followed by `gc_mark_stack`, as well as each phase alone) is monotone
and idempotent on registry tags — it only ever sets `MARK` bits and
never clears or changes any other tag bit, leaves every other collector
field unchanged, and running it twice from the same program state
produces exactly the same state as running it once. -/
theorem gc_mark_monotone_idempotent (mem : Nat → Nat) (stack : List Nat)
    (gc : GarbageCollector) :
    markEvolves gc.allocs (gc_mark_roots mem gc).allocs ∧
    markEvolves gc.allocs (gc_mark_stack mem stack gc).allocs ∧
    markEvolves gc.allocs (gc_mark mem stack gc).allocs ∧
    (gc_mark mem stack gc).paused = gc.paused ∧
    (gc_mark mem stack gc).bos = gc.bos ∧
    (gc_mark mem stack gc).min_size = gc.min_size ∧
    gc_mark_roots mem (gc_mark_roots mem gc) = gc_mark_roots mem gc ∧
    gc_mark_stack mem stack (gc_mark_stack mem stack gc) = gc_mark_stack mem stack gc ∧
    gc_mark mem stack (gc_mark mem stack gc) = gc_mark mem stack gc :=
  ⟨gc_mark_roots_evolves mem gc, gc_mark_stack_evolves mem stack gc,
    gc_mark_evolves mem stack gc, rfl, rfl, rfl,
    gc_mark_roots_idem mem gc, gc_mark_stack_idem mem stack gc,
    gc_mark_idem mem stack gc⟩

/-! ## The sweep pass, characterized -/

theorem sr_ext {a b : SweepResult} (h₁ : a.am = b.am)
    (h₂ : a.reclaimed = b.reclaimed) (h₃ : a.dtorCalls = b.dtorCalls)
    (h₄ : a.rawFreed = b.rawFreed) : a = b := by
  cases a; cases b; simp_all

theorem am_ext {a b : AllocationMap} (h₁ : a.capacity = b.capacity)
    (h₂ : a.min_capacity = b.min_capacity) (h₃ : a.size = b.size)
    (h₄ : a.sweep_limit = b.sweep_limit) (h₅ : a.sweep_factor = b.sweep_factor)
    (h₆ : a.downsize_factor = b.downsize_factor) (h₇ : a.upsize_factor = b.upsize_factor)
    (h₈ : a.allocs = b.allocs) : a = b := by
  cases a; cases b; simp_all

theorem gc_allocation_map_remove_false (am : AllocationMap) (p : Nat) :
    gc_allocation_map_remove am p false =
      { am with
          allocs := (removeOnPtr am.allocs p).1,
          size := if (removeOnPtr am.allocs p).2 then am.size - 1 else am.size } := by
  simp [gc_allocation_map_remove]

theorem gc_sweep_loop_cons_marked {am : AllocationMap} {a : Allocation}
    {rest : List Allocation} (h : a.tag.mark = true) :
    gc_sweep_loop am (a :: rest) =
      gc_sweep_loop
        { am with allocs := modifyOnPtr am.allocs a.ptr (fun x => { x with tag := clearMark x.tag }) }
        rest := by
  simp [gc_sweep_loop, h]

theorem gc_sweep_loop_cons_root {am : AllocationMap} {a : Allocation}
    {rest : List Allocation} (h₁ : a.tag.mark = false) (h₂ : a.tag.root = true) :
    gc_sweep_loop am (a :: rest) = gc_sweep_loop am rest := by
  simp [gc_sweep_loop, h₁, h₂]

theorem gc_sweep_loop_cons_collect {am : AllocationMap} {a : Allocation}
    {rest : List Allocation} (h₁ : a.tag.mark = false) (h₂ : a.tag.root = false) :
    gc_sweep_loop am (a :: rest) =
      ⟨(gc_sweep_loop (gc_allocation_map_remove am a.ptr false) rest).am,
       a.size + (gc_sweep_loop (gc_allocation_map_remove am a.ptr false) rest).reclaimed,
       dtorCallsOf a ++ (gc_sweep_loop (gc_allocation_map_remove am a.ptr false) rest).dtorCalls,
       a.ptr :: (gc_sweep_loop (gc_allocation_map_remove am a.ptr false) rest).rawFreed⟩ := by
  simp [gc_sweep_loop, h₁, h₂]

theorem nodup_split {pre rest : List Allocation} {a : Allocation}
    (h : ((pre ++ a :: rest).map (fun x => x.ptr)).Nodup) :
    (∀ x ∈ pre, x.ptr ≠ a.ptr) ∧ ((pre ++ rest).map (fun x => x.ptr)).Nodup ∧
    (((pre ++ [a]) ++ rest).map (fun x => x.ptr)).Nodup := by
  refine ⟨?_, ?_, by simpa [List.append_assoc] using h⟩
  · intro x hx heq
    have h' := h
    rw [List.map_append, List.map_cons] at h'
    rcases List.nodup_append.mp h' with ⟨-, -, hdisj⟩
    exact hdisj (List.mem_map_of_mem _ hx) (by rw [heq]; exact List.mem_cons_self _ _)
  · refine h.sublist (List.Sublist.map _ ?_)
    exact List.Sublist.append (List.Sublist.refl pre) (List.sublist_cons_self a rest)

theorem gc_sweep_loop_spec (l : List Allocation) :
    ∀ (pre : List Allocation) (am : AllocationMap),
    am.allocs = pre ++ l → ((pre ++ l).map (fun x => x.ptr)).Nodup →
    gc_sweep_loop am l =
      ⟨{ am with
           allocs := pre ++ l.filterMap survivorFn,
           size := am.size - (collectedOf l).length },
       ((collectedOf l).map (fun a => a.size)).sum,
       dtorCallsSpec (collectedOf l),
       (collectedOf l).map (fun a => a.ptr)⟩ := by
  induction l with
  | nil =>
    intro pre am ham _
    simp only [gc_sweep_loop]
    exact sr_ext (am_ext rfl rfl (by simp [collectedOf]) rfl rfl rfl rfl (by simp [ham]))
      (by simp [collectedOf]) (by simp [collectedOf, dtorCallsSpec]) (by simp [collectedOf])
  | cons a rest ih =>
    intro pre am ham hnd
    obtain ⟨hpre, hnd2, hnd3⟩ := nodup_split hnd
    cases hmark : a.tag.mark with
    | true =>
      rw [gc_sweep_loop_cons_marked hmark]
      have hmod : modifyOnPtr am.allocs a.ptr (fun x => { x with tag := clearMark x.tag }) =
          pre ++ { a with tag := clearMark a.tag } :: rest := by
        rw [ham, modifyOnPtr_append_left hpre, modifyOnPtr_cons_self rfl]
      rw [ih (pre ++ [{ a with tag := clearMark a.tag }]) _ (by simp [hmod]) (by simpa using hnd3)]
      have hsurv : (a :: rest).filterMap survivorFn =
          { a with tag := clearMark a.tag } :: rest.filterMap survivorFn := by
        simp [survivorFn, hmark]
      have hcoll : collectedOf (a :: rest) = collectedOf rest := by
        simp [collectedOf, List.filter, collectedP, hmark]
      rw [hsurv, hcoll]
      exact sr_ext (am_ext rfl rfl rfl rfl rfl rfl rfl (by simp)) rfl rfl rfl
    | false =>
      cases hroot : a.tag.root with
      | true =>
        rw [gc_sweep_loop_cons_root hmark hroot]
        rw [ih (pre ++ [a]) _ (by simp [ham]) (by simpa using hnd3)]
        have hsurv : (a :: rest).filterMap survivorFn = a :: rest.filterMap survivorFn := by
          simp [survivorFn, hmark, hroot]
        have hcoll : collectedOf (a :: rest) = collectedOf rest := by
          simp [collectedOf, List.filter, collectedP, hmark, hroot]
        rw [hsurv, hcoll]
        exact sr_ext (am_ext rfl rfl rfl rfl rfl rfl rfl (by simp)) rfl rfl rfl
      | false =>
        rw [gc_sweep_loop_cons_collect hmark hroot]
        have hrem : removeOnPtr am.allocs a.ptr = (pre ++ rest, true) := by
          rw [ham]; exact removeOnPtr_append hpre rfl
        rw [gc_allocation_map_remove_false]
        rw [ih pre { am with
              allocs := (removeOnPtr am.allocs a.ptr).1,
              size := if (removeOnPtr am.allocs a.ptr).2 then am.size - 1 else am.size }
            (by simp [hrem]) hnd2]
        have hsurv : (a :: rest).filterMap survivorFn = rest.filterMap survivorFn := by
          simp [survivorFn, hmark, hroot]
        have hcoll : collectedOf (a :: rest) = a :: collectedOf rest := by
          simp [collectedOf, List.filter, collectedP, hmark, hroot]
        rw [hsurv, hcoll]
        refine sr_ext (am_ext rfl rfl ?_ rfl rfl rfl rfl rfl) (by simp) ?_ (by simp)
        · simp [hrem]
          omega
        · cases hd : a.dtor <;> simp [dtorCallsOf, dtorCallsSpec, hd]

theorem shrink_to_fit_frame (am : AllocationMap) :
    (gc_allocation_map_shrink_to_fit am).allocs = am.allocs ∧
    (gc_allocation_map_shrink_to_fit am).size = am.size := by
  unfold gc_allocation_map_shrink_to_fit
  split <;> simp [gc_allocation_map_resize]

theorem survivors_length (l : List Allocation) :
    (l.filterMap survivorFn).length + (collectedOf l).length = l.length := by
  induction l with
  | nil => simp [collectedOf]
  | cons a rest ih =>
    simp only [collectedOf] at ih ⊢
    cases hm : a.tag.mark with
    | true =>
      rw [List.filterMap_cons_some (show survivorFn a = some { a with tag := clearMark a.tag }
            from by simp [survivorFn, hm]),
        List.filter_cons_of_neg (show ¬collectedP a = true from by simp [collectedP, hm])]
      simp only [List.length_cons]
      omega
    | false =>
      cases hr : a.tag.root with
      | true =>
        rw [List.filterMap_cons_some (show survivorFn a = some a
              from by simp [survivorFn, hm, hr]),
          List.filter_cons_of_neg (show ¬collectedP a = true from by simp [collectedP, hr])]
        simp only [List.length_cons]
        omega
      | false =>
        rw [List.filterMap_cons_none (show survivorFn a = none
              from by simp [survivorFn, hm, hr]),
          List.filter_cons_of_pos (show collectedP a = true from by simp [collectedP, hm, hr])]
        simp only [List.length_cons]
        omega

theorem survivors_no_mark {l : List Allocation}
    (h : ∀ a ∈ l, a.tag.mark = false) :
    l.filterMap survivorFn = l.filter (fun a => a.tag.root) := by
  induction l with
  | nil => rfl
  | cons a rest ih =>
    have hm : a.tag.mark = false := h a (by simp)
    cases hr : a.tag.root with
    | true =>
      rw [List.filterMap_cons_some (show survivorFn a = some a
            from by simp [survivorFn, hm, hr]),
        List.filter_cons_of_pos (by simpa using hr),
        ih (fun x hx => h x (by simp [hx]))]
    | false =>
      rw [List.filterMap_cons_none (show survivorFn a = none
            from by simp [survivorFn, hm, hr]),
        List.filter_cons_of_neg (by simpa using hr),
        ih (fun x hx => h x (by simp [hx]))]

/-- Claim C1: for every well-formed registry state, `gc_sweep` makes a
single pass over all records — every record with `MARK` set survives
with `MARK` cleared, every record with `MARK` clear but `ROOT` set is
skipped and survives, every record with both clear has its destructor
(if present) invoked with its `ptr`, its `ptr` raw-freed and its record
removed from the registry — and the value returned is the sum of the
sizes of the removed records; after a sweep in which no record was
marked, `registry.size` equals the number of `ROOT` records. -/
theorem gc_sweep_single_pass (gc : GarbageCollector)
    (hnd : (gc.allocs.allocs.map (fun a => a.ptr)).Nodup) : sweepSpec gc := by
  have hloop := gc_sweep_loop_spec gc.allocs.allocs [] gc.allocs (by simp) (by simpa using hnd)
  refine ⟨?_, ?_, ?_, ?_, ?_, ?_, ?_⟩
  · show (gc_allocation_map_shrink_to_fit (gc_sweep_loop gc.allocs gc.allocs.allocs).am).allocs = _
    rw [(shrink_to_fit_frame _).1, hloop]
    simp
  · show (gc_allocation_map_shrink_to_fit (gc_sweep_loop gc.allocs gc.allocs.allocs).am).allocs = _
    rw [(shrink_to_fit_frame _).1, hloop]
    simp
  · show (gc_sweep_loop gc.allocs gc.allocs.allocs).reclaimed = _
    rw [hloop]
  · show (gc_sweep_loop gc.allocs gc.allocs.allocs).dtorCalls = _
    rw [hloop]
  · show (gc_sweep_loop gc.allocs gc.allocs.allocs).rawFreed = _
    rw [hloop]
  · show (gc_allocation_map_shrink_to_fit (gc_sweep_loop gc.allocs gc.allocs.allocs).am).size = _
    rw [(shrink_to_fit_frame _).2, hloop]
  · intro hnm hsz
    show (gc_allocation_map_shrink_to_fit (gc_sweep_loop gc.allocs gc.allocs.allocs).am).size = _
    rw [(shrink_to_fit_frame _).2, hloop]
    show gc.allocs.size - (collectedOf gc.allocs.allocs).length = _
    have h₁ := survivors_length gc.allocs.allocs
    rw [survivors_no_mark hnm] at h₁
    omega

/-- Witness for C1: a concrete three-record registry with distinct
pointers, one record per sweep case. -/
theorem gc_sweep_single_pass_witness :
    (sweepWitnessGC.allocs.allocs.map (fun a => a.ptr)).Nodup ∧ sweepSpec sweepWitnessGC :=
  ⟨by decide, gc_sweep_single_pass sweepWitnessGC (by decide)⟩

/-! ## Registry construction sizing and the sweep-limit invariant -/

/-- Claim C4: constructing a registry with arguments `8, 16, sweep=0.5,
down=0.2, up=0.8` yields `min_capacity = 11`, `capacity = 17`,
`size = 0` and `sweep_limit = 8`; the same construction with `4` in
place of `16` yields `capacity = 11` and `sweep_limit = 5`. -/
theorem gc_allocation_map_new_sizing :
    (gc_allocation_map_new 8 16 ⟨1, 2⟩ ⟨1, 5⟩ ⟨4, 5⟩).min_capacity = 11 ∧
    (gc_allocation_map_new 8 16 ⟨1, 2⟩ ⟨1, 5⟩ ⟨4, 5⟩).capacity = 17 ∧
    (gc_allocation_map_new 8 16 ⟨1, 2⟩ ⟨1, 5⟩ ⟨4, 5⟩).size = 0 ∧
    (gc_allocation_map_new 8 16 ⟨1, 2⟩ ⟨1, 5⟩ ⟨4, 5⟩).sweep_limit = 8 ∧
    (gc_allocation_map_new 8 4 ⟨1, 2⟩ ⟨1, 5⟩ ⟨4, 5⟩).min_capacity = 11 ∧
    (gc_allocation_map_new 8 4 ⟨1, 2⟩ ⟨1, 5⟩ ⟨4, 5⟩).capacity = 11 ∧
    (gc_allocation_map_new 8 4 ⟨1, 2⟩ ⟨1, 5⟩ ⟨4, 5⟩).size = 0 ∧
    (gc_allocation_map_new 8 4 ⟨1, 2⟩ ⟨1, 5⟩ ⟨4, 5⟩).sweep_limit = 5 := by
  decide

/-- Counterexample to C3 as stated: at the very first reachable registry
state — construction with `min=8, capacity=16, sweep=0.5` — the code's
`sweep_limit` is `8`, while the spec's `⌈sweep_factor · capacity⌉`
formula gives `⌈0.5 · 17⌉ = 9`. -/
theorem sweep_limit_not_ceiling :
    (gc_allocation_map_new 8 16 ⟨1, 2⟩ ⟨1, 5⟩ ⟨4, 5⟩).capacity = 17 ∧
    (gc_allocation_map_new 8 16 ⟨1, 2⟩ ⟨1, 5⟩ ⟨4, 5⟩).sweep_factor = ⟨1, 2⟩ ∧
    (gc_allocation_map_new 8 16 ⟨1, 2⟩ ⟨1, 5⟩ ⟨4, 5⟩).sweep_limit = 8 ∧
    sweepLimitCeilSpec ⟨1, 2⟩ 17 = 9 ∧
    (gc_allocation_map_new 8 16 ⟨1, 2⟩ ⟨1, 5⟩ ⟨4, 5⟩).sweep_limit ≠
      sweepLimitCeilSpec ⟨1, 2⟩ 17 := by
  have hceil : sweepLimitCeilSpec ⟨1, 2⟩ 17 = 9 := by
    unfold sweepLimitCeilSpec
    rw [Nat.ceil_eq_iff (by norm_num)]
    norm_num
  refine ⟨by decide, by decide, by decide, hceil, ?_⟩
  rw [hceil]
  decide

/-- Claim C3 (amended): at all times — immediately after registry
construction and after every resize, and preserved by `put`, `remove`
and `sweep` — `sweep_limit = ⌊sweep_factor · capacity⌋`, the truncation
(not the ceiling) of `sweep_factor` times the current capacity; the
final clause ties the `Nat` cross-multiplication formula to the
rational floor. -/
theorem sweep_limit_floor_invariant :
    (∀ mc c sf df uf, sweepInv (gc_allocation_map_new mc c sf df uf)) ∧
    (∀ am nc, sweepInv (gc_allocation_map_resize am nc)) ∧
    (∀ am p s d, sweepInv am → sweepInv (gc_allocation_map_put am p s d).1) ∧
    (∀ am p b, sweepInv am → sweepInv (gc_allocation_map_remove am p b)) ∧
    (∀ am, sweepInv am → sweepInv (gc_sweep_map am).am) ∧
    (∀ r c, 0 < r.den →
      ratioMulFloor r c = Nat.floor ((r.num : ℚ) / (r.den : ℚ) * (c : ℚ))) := by
  have hresize : ∀ am nc, sweepInv (gc_allocation_map_resize am nc) := fun am nc => rfl
  have hloopframe : ∀ l am, (gc_sweep_loop am l).am.capacity = am.capacity ∧
      (gc_sweep_loop am l).am.sweep_limit = am.sweep_limit ∧
      (gc_sweep_loop am l).am.sweep_factor = am.sweep_factor := by
    intro l
    induction l with
    | nil => intro am; exact ⟨rfl, rfl, rfl⟩
    | cons a rest ih =>
      intro am
      cases hm : a.tag.mark with
      | true => rw [gc_sweep_loop_cons_marked hm]; exact ih _
      | false =>
        cases hr : a.tag.root with
        | true => rw [gc_sweep_loop_cons_root hm hr]; exact ih _
        | false =>
          rw [gc_sweep_loop_cons_collect hm hr]
          exact ih _
  refine ⟨fun _ _ _ _ _ => rfl, hresize, ?_, ?_, ?_, ?_⟩
  · intro am p s d h
    unfold gc_allocation_map_put
    split
    · exact h
    · show sweepInv (if _ then _ else _)
      split
      · exact hresize _ _
      · exact h
  · intro am p b h
    simp only [gc_allocation_map_remove]
    split <;> split <;> first | exact hresize _ _ | exact h
  · intro am h
    show sweepInv (gc_allocation_map_shrink_to_fit (gc_sweep_loop am am.allocs).am)
    unfold gc_allocation_map_shrink_to_fit
    split
    · exact hresize _ _
    · obtain ⟨h₁, h₂, h₃⟩ := hloopframe am.allocs am
      unfold sweepInv at *
      rw [h₁, h₂, h₃, h]
  · intro r c hden
    rw [show (r.num : ℚ) / (r.den : ℚ) * (c : ℚ) = ((r.num * c : ℕ) : ℚ) / ((r.den : ℕ) : ℚ)
        from by push_cast; ring]
    rw [Nat.floor_div_nat, Nat.floor_natCast]
    rfl

/-- Witness for the amended C3: the invariant evaluated on the concrete
construction `new(8, 16, 0.5, 0.2, 0.8)` and after a `put`, a `remove`
and a full sweep of it, plus the floor formula at `0.5 · 17`. -/
theorem sweep_limit_floor_invariant_witness :
    sweepInv (gc_allocation_map_new 8 16 ⟨1, 2⟩ ⟨1, 5⟩ ⟨4, 5⟩) ∧
    sweepInv (gc_allocation_map_put (gc_allocation_map_new 8 16 ⟨1, 2⟩ ⟨1, 5⟩ ⟨4, 5⟩) 5 3 none).1 ∧
    sweepInv (gc_allocation_map_remove (gc_allocation_map_new 8 16 ⟨1, 2⟩ ⟨1, 5⟩ ⟨4, 5⟩) 5 true) ∧
    sweepInv (gc_sweep_map (gc_allocation_map_new 8 16 ⟨1, 2⟩ ⟨1, 5⟩ ⟨4, 5⟩)).am ∧
    0 < (2 : Nat) ∧ ratioMulFloor ⟨1, 2⟩ 17 = Nat.floor ((1 : ℚ) / (2 : ℚ) * (17 : ℚ)) :=
  ⟨sweep_limit_floor_invariant.1 8 16 ⟨1, 2⟩ ⟨1, 5⟩ ⟨4, 5⟩,
   sweep_limit_floor_invariant.2.2.1 _ 5 3 none
     (sweep_limit_floor_invariant.1 8 16 ⟨1, 2⟩ ⟨1, 5⟩ ⟨4, 5⟩),
   sweep_limit_floor_invariant.2.2.2.1 _ 5 true
     (sweep_limit_floor_invariant.1 8 16 ⟨1, 2⟩ ⟨1, 5⟩ ⟨4, 5⟩),
   sweep_limit_floor_invariant.2.2.2.2.1 _
     (sweep_limit_floor_invariant.1 8 16 ⟨1, 2⟩ ⟨1, 5⟩ ⟨4, 5⟩),
   by decide,
   sweep_limit_floor_invariant.2.2.2.2.2 ⟨1, 2⟩ 17 (by decide)⟩

/-! ## Reallocation -/

theorem put_fresh {am : AllocationMap} {p s : Nat} {d : Option Nat}
    (hget : gc_allocation_map_get am p = none) :
    (gc_allocation_map_put am p s d).1.allocs = ⟨p, s, GC_TAG_NONE, d⟩ :: am.allocs ∧
    (gc_allocation_map_put am p s d).1.size = am.size + 1 := by
  simp only [gc_allocation_map_put, hget]
  split <;> simp [gc_allocation_map_resize]

theorem find?_removeOnPtr_self {l : List Allocation} {p : Nat}
    (hnd : (l.map (fun x => x.ptr)).Nodup) :
    (removeOnPtr l p).1.find? (fun x => x.ptr == p) = none := by
  induction l with
  | nil => rfl
  | cons x rest ih =>
    rw [List.map_cons] at hnd
    rcases List.nodup_cons.mp hnd with ⟨hx, hrest⟩
    by_cases hp : x.ptr = p
    · simp only [removeOnPtr, if_pos hp]
      apply List.find?_eq_none.mpr
      intro y hy hyp
      have hyp' : y.ptr = p := by simpa using hyp
      apply hx
      rw [hp, ← hyp']
      exact List.mem_map_of_mem _ hy
    · simp only [removeOnPtr, if_neg hp]
      rw [List.find?_cons_of_neg _ (by simpa using hp)]
      exact ih hrest

theorem get_gc_sweep_loop_avoid {q : Nat} :
    ∀ (l : List Allocation) (am : AllocationMap), (∀ x ∈ l, x.ptr ≠ q) →
    gc_allocation_map_get (gc_sweep_loop am l).am q = gc_allocation_map_get am q := by
  intro l
  induction l with
  | nil => intro am _; rfl
  | cons a rest ih =>
    intro am h
    have ha : a.ptr ≠ q := h a (by simp)
    have htail : ∀ x ∈ rest, x.ptr ≠ q := fun x hx => h x (by simp [hx])
    cases hm : a.tag.mark with
    | true =>
      rw [gc_sweep_loop_cons_marked hm, ih _ htail]
      exact find?_modifyOnPtr_ne ha (fun _ => rfl)
    | false =>
      cases hr : a.tag.root with
      | true => rw [gc_sweep_loop_cons_root hm hr]; exact ih _ htail
      | false =>
        rw [gc_sweep_loop_cons_collect hm hr]
        show gc_allocation_map_get
          (gc_sweep_loop (gc_allocation_map_remove am a.ptr false) rest).am q = _
        rw [ih _ htail, gc_allocation_map_remove_false]
        exact find?_removeOnPtr_ne ha

theorem gc_trigger_get_protected {mem : Nat → Nat} {stack : List Nat} {q : Nat}
    {gc : GarbageCollector} (hd : Allocation) (rest0 : List Allocation)
    (hsplit : gc.allocs.allocs = hd :: rest0) (hq : hd.ptr = q)
    (hrest : ∀ x ∈ rest0, x.ptr ≠ q) :
    ∃ b, gc_allocation_map_get (gc_trigger mem stack q gc).1.allocs q = some b ∧
      b.ptr = hd.ptr ∧ b.size = hd.size ∧ b.dtor = hd.dtor ∧
      b.tag.root = hd.tag.root ∧ b.tag.leaf = hd.tag.leaf := by
  unfold gc_trigger
  split
  · -- a collection runs; the new record is protected by the appended stack slot
    have hf : List.Forall₂ tagStep (hd :: rest0)
        (gc_mark mem (stack ++ [q]) gc).allocs.allocs := by
      rw [← hsplit]
      exact (gc_mark_evolves mem (stack ++ [q]) gc).2.2.2.2.2.2.2
    rcases List.forall₂_cons_left_iff.mp hf with ⟨b0, rest1, hstep, htl, hMeq⟩
    have hb0q : b0.ptr = q := by rw [hstep.1, hq]
    have hgetM : gc_allocation_map_get (gc_mark mem (stack ++ [q]) gc).allocs q = some b0 := by
      show List.find? _ (gc_mark mem (stack ++ [q]) gc).allocs.allocs = _
      rw [hMeq]
      exact List.find?_cons_of_pos _ (by simp [hb0q])
    have hmarked : b0.tag.mark = true := by
      have hma : markedOrAbsent (gc_mark mem (stack ++ [q]) gc).allocs q = true :=
        gc_mark_worklist_marks mem (gc_mark_roots mem gc).allocs (stack ++ [q]) q (by simp)
      simpa [markedOrAbsent, hgetM] using hma
    have hrest1 : ∀ x ∈ rest1, x.ptr ≠ q := by
      intro x hx
      have hmapeq := forall₂_tagStep_map_ptr htl
      have : x.ptr ∈ rest0.map (fun a => a.ptr) := by
        rw [← hmapeq]
        exact List.mem_map_of_mem _ hx
      rcases List.mem_map.mp this with ⟨y, hy, hyx⟩
      rw [← hyx]
      exact hrest y hy
    refine ⟨{ b0 with tag := clearMark b0.tag }, ?_,
      hstep.1, hstep.2.1, hstep.2.2.1, hstep.2.2.2.1, hstep.2.2.2.2.1⟩
    show gc_allocation_map_get
      (gc_sweep_map (gc_mark mem (stack ++ [q]) gc).allocs).am q = _
    show gc_allocation_map_get
      (gc_allocation_map_shrink_to_fit
        (gc_sweep_loop (gc_mark mem (stack ++ [q]) gc).allocs
          (gc_mark mem (stack ++ [q]) gc).allocs.allocs).am) q = _
    rw [show gc_allocation_map_get
        (gc_allocation_map_shrink_to_fit
          (gc_sweep_loop (gc_mark mem (stack ++ [q]) gc).allocs
            (gc_mark mem (stack ++ [q]) gc).allocs.allocs).am) q =
        gc_allocation_map_get
          (gc_sweep_loop (gc_mark mem (stack ++ [q]) gc).allocs
            (gc_mark mem (stack ++ [q]) gc).allocs.allocs).am q from by
      unfold gc_allocation_map_get
      rw [(shrink_to_fit_frame _).1]]
    rw [hMeq, gc_sweep_loop_cons_marked hmarked]
    rw [get_gc_sweep_loop_avoid rest1 _ hrest1]
    show List.find? _ (modifyOnPtr (gc_mark mem (stack ++ [q]) gc).allocs.allocs b0.ptr _) = _
    rw [hMeq, modifyOnPtr_cons_self rfl]
    exact List.find?_cons_of_pos _ (by simp [hb0q])
  · exact ⟨hd, by
      show List.find? _ gc.allocs.allocs = _ ∧ _
      rw [hsplit]
      exact ⟨List.find?_cons_of_pos _ (by simp [hq]), rfl, rfl, rfl, rfl, rfl⟩⟩

theorem gc_malloc_ext_fresh (mem : Nat → Nat) (stack : List Nat)
    (gc : GarbageCollector) (raw size : Nat) (dtor : Option Nat)
    (hraw : raw ≠ 0) (hfresh : gc_allocation_map_get gc.allocs raw = none) :
    (gc_malloc_ext mem stack gc raw size dtor).2.1 = raw ∧
    ∃ b, gc_allocation_map_get (gc_malloc_ext mem stack gc raw size dtor).1.allocs raw =
        some b ∧
      b.ptr = raw ∧ b.size = size ∧ b.dtor = dtor ∧
      b.tag.root = false ∧ b.tag.leaf = false := by
  have hput := @put_fresh gc.allocs raw size dtor hfresh
  unfold gc_malloc_ext
  rw [if_neg hraw]
  refine ⟨rfl, ?_⟩
  obtain ⟨b, hb, h1, h2, h3, h4, h5⟩ :=
    @gc_trigger_get_protected mem stack raw
      { gc with allocs := (gc_allocation_map_put gc.allocs raw size dtor).1 }
      ⟨raw, size, GC_TAG_NONE, dtor⟩ gc.allocs.allocs hput.1 rfl (get_eq_none_iff.mp hfresh)
  exact ⟨b, hb, h1, h2, h3, h4, h5⟩

theorem remove_allocs (am : AllocationMap) (p : Nat) (b : Bool) :
    (gc_allocation_map_remove am p b).allocs = (removeOnPtr am.allocs p).1 := by
  simp only [gc_allocation_map_remove]
  split <;> split <;> simp [gc_allocation_map_resize]

/-- Claim C5: for every non-null pointer with no record in the registry,
`gc_realloc` returns nil and leaves the collector completely unchanged
(no record added, removed or modified, no destructor run); and
`gc_realloc(nil, n)` behaves exactly as `gc_malloc(n)`, returning a
newly managed block whose record has size `n`. -/
theorem gc_realloc_unknown_and_nil (mem : Nat → Nat) (stack : List Nat)
    (gc : GarbageCollector) (p raw n : Nat) :
    (p ≠ 0 → gc_allocation_map_get gc.allocs p = none →
      gc_realloc mem stack gc p raw n = (gc, 0, [])) ∧
    gc_realloc mem stack gc 0 raw n = gc_malloc mem stack gc raw n ∧
    (raw ≠ 0 → gc_allocation_map_get gc.allocs raw = none →
      (gc_realloc mem stack gc 0 raw n).2.1 = raw ∧
      ∃ b, gc_allocation_map_get (gc_realloc mem stack gc 0 raw n).1.allocs raw = some b ∧
        b.ptr = raw ∧ b.size = n ∧ b.dtor = none) := by
  refine ⟨?_, rfl, ?_⟩
  · intro hp hget
    simp [gc_realloc, hp, hget]
  · intro hraw hfresh
    have h := gc_malloc_ext_fresh mem stack gc raw n none hraw hfresh
    refine ⟨h.1, ?_⟩
    obtain ⟨b, hb, h1, h2, h3, -, -⟩ := h.2
    exact ⟨b, hb, h1, h2, h3⟩

/-- Witness for C5: a freshly started empty collector; address `5` is
foreign and refused, a nil reallocation at raw address `8` yields a
managed record of size `3`. -/
theorem gc_realloc_unknown_and_nil_witness :
    ((5 : Nat) ≠ 0 ∧ gc_allocation_map_get reallocNilWitnessGC.allocs 5 = none ∧
      gc_realloc (fun _ => 0) [] reallocNilWitnessGC 5 8 3 = (reallocNilWitnessGC, 0, [])) ∧
    ((8 : Nat) ≠ 0 ∧ gc_allocation_map_get reallocNilWitnessGC.allocs 8 = none ∧
      (gc_realloc (fun _ => 0) [] reallocNilWitnessGC 0 8 3).2.1 = 8 ∧
      ∃ b, gc_allocation_map_get
          (gc_realloc (fun _ => 0) [] reallocNilWitnessGC 0 8 3).1.allocs 8 = some b ∧
        b.ptr = 8 ∧ b.size = 3 ∧ b.dtor = none) :=
  ⟨⟨by decide, by decide,
    (gc_realloc_unknown_and_nil (fun _ => 0) [] reallocNilWitnessGC 5 8 3).1
      (by decide) (by decide)⟩,
   ⟨by decide, by decide,
    ((gc_realloc_unknown_and_nil (fun _ => 0) [] reallocNilWitnessGC 5 8 3).2.2
      (by decide) (by decide)).1,
    ((gc_realloc_unknown_and_nil (fun _ => 0) [] reallocNilWitnessGC 5 8 3).2.2
      (by decide) (by decide)).2⟩⟩

/-- Claim C6: when `gc_realloc` is called on a managed pointer and the
raw reallocator returns a different (fresh, non-null) address, the old
record is removed without invoking its destructor, and a fresh record is
inserted at the new address carrying the same `dtor` and the same tag
bits with the requested new size; the new address is returned. -/
theorem gc_realloc_move (mem : Nat → Nat) (stack : List Nat) (gc : GarbageCollector)
    (p q n : Nat) (a : Allocation)
    (hnd : (gc.allocs.allocs.map (fun x => x.ptr)).Nodup)
    (hp : p ≠ 0) (hget : gc_allocation_map_get gc.allocs p = some a)
    (hq0 : q ≠ 0) (hqp : q ≠ p)
    (hqfresh : gc_allocation_map_get gc.allocs q = none) :
    (gc_realloc mem stack gc p q n).2.1 = q ∧
    (gc_realloc mem stack gc p q n).2.2 = [] ∧
    gc_allocation_map_get (gc_realloc mem stack gc p q n).1.allocs p = none ∧
    gc_allocation_map_get (gc_realloc mem stack gc p q n).1.allocs q =
      some ⟨q, n, a.tag, a.dtor⟩ := by
  have hA1 : (gc_allocation_map_remove gc.allocs p true).allocs =
      (removeOnPtr gc.allocs.allocs p).1 := remove_allocs gc.allocs p true
  have h1 : gc_allocation_map_get (gc_allocation_map_remove gc.allocs p true) q = none := by
    show List.find? _ (gc_allocation_map_remove gc.allocs p true).allocs = none
    rw [hA1, find?_removeOnPtr_ne (Ne.symm hqp)]
    exact hqfresh
  have hput := @put_fresh (gc_allocation_map_remove gc.allocs p true) q n a.dtor h1
  have hre : gc_realloc mem stack gc p q n =
      ({ gc with allocs :=
          { (gc_allocation_map_put (gc_allocation_map_remove gc.allocs p true) q n a.dtor).1 with
              allocs := modifyOnPtr
                (gc_allocation_map_put (gc_allocation_map_remove gc.allocs p true) q n a.dtor).1.allocs
                q (fun x => { x with tag := a.tag }) } }, q, []) := by
    simp only [gc_realloc, if_neg hp, hget, if_neg hq0, if_neg hqp]
  refine ⟨by rw [hre], by rw [hre], ?_, ?_⟩
  · rw [hre]
    show List.find? _ (modifyOnPtr _ q _) = none
    rw [hput.1, modifyOnPtr_cons_self rfl,
      List.find?_cons_of_neg _ (by simp [hqp]), hA1]
    exact find?_removeOnPtr_self hnd
  · rw [hre]
    show List.find? _ (modifyOnPtr _ q _) = some _
    rw [hput.1, modifyOnPtr_cons_self rfl]
    exact List.find?_cons_of_pos _ (by simp)

/-- Witness for C6: move the single record at address 8 (tagged
`ROOT`+`LEAF`, destructor `7`) to fresh address 16 with new size 9. -/
theorem gc_realloc_move_witness :
    ((reallocWitnessGC.allocs.allocs.map (fun x => x.ptr)).Nodup ∧
      (8 : Nat) ≠ 0 ∧
      gc_allocation_map_get reallocWitnessGC.allocs 8 =
        some ⟨8, 4, ⟨false, true, true⟩, some 7⟩ ∧
      (16 : Nat) ≠ 0 ∧ (16 : Nat) ≠ 8 ∧
      gc_allocation_map_get reallocWitnessGC.allocs 16 = none) ∧
    ((gc_realloc (fun _ => 0) [] reallocWitnessGC 8 16 9).2.1 = 16 ∧
      (gc_realloc (fun _ => 0) [] reallocWitnessGC 8 16 9).2.2 = [] ∧
      gc_allocation_map_get (gc_realloc (fun _ => 0) [] reallocWitnessGC 8 16 9).1.allocs 8 =
        none ∧
      gc_allocation_map_get (gc_realloc (fun _ => 0) [] reallocWitnessGC 8 16 9).1.allocs 16 =
        some ⟨16, 9, ⟨false, true, true⟩, some 7⟩) :=
  ⟨⟨by decide, by decide, by decide, by decide, by decide, by decide⟩,
   gc_realloc_move (fun _ => 0) [] reallocWitnessGC 8 16 9
     ⟨8, 4, ⟨false, true, true⟩, some 7⟩ (by decide) (by decide) (by decide)
     (by decide) (by decide) (by decide)⟩

/-! ## Positivity of record sizes along operation traces -/

theorem mem_modifyOnPtr {l : List Allocation} {p : Nat} {f : Allocation → Allocation}
    {b : Allocation} (hb : b ∈ modifyOnPtr l p f) : b ∈ l ∨ ∃ a ∈ l, b = f a := by
  induction l with
  | nil => simp [modifyOnPtr] at hb
  | cons a rest ih =>
    by_cases hp : a.ptr = p
    · rw [modifyOnPtr_cons_self hp] at hb
      rcases List.mem_cons.mp hb with rfl | hb'
      · exact Or.inr ⟨a, by simp, rfl⟩
      · exact Or.inl (by simp [hb'])
    · simp only [modifyOnPtr, if_neg hp] at hb
      rcases List.mem_cons.mp hb with rfl | hb'
      · exact Or.inl (by simp)
      · rcases ih hb' with h | ⟨x, hx, hxf⟩
        · exact Or.inl (by simp [h])
        · exact Or.inr ⟨x, by simp [hx], hxf⟩

theorem sizePos_modify {am : AllocationMap} {p : Nat} {f : Allocation → Allocation}
    (hf : ∀ x, (f x).size = x.size) (h : sizePos am) :
    sizePos { am with allocs := modifyOnPtr am.allocs p f } := by
  intro b hb
  rcases mem_modifyOnPtr hb with hbl | ⟨a, ha, rfl⟩
  · exact h b hbl
  · rw [hf a]
    exact h a ha

theorem sizePos_resize {am : AllocationMap} {nc : Nat} (h : sizePos am) :
    sizePos (gc_allocation_map_resize am nc) := h

theorem sizePos_put {am : AllocationMap} {p s : Nat} {d : Option Nat}
    (h : sizePos am) (hs : 0 < s) : sizePos (gc_allocation_map_put am p s d).1 := by
  unfold gc_allocation_map_put
  split
  · intro b hb
    rcases mem_modifyOnPtr hb with hbl | ⟨a, _, rfl⟩
    · exact h b hbl
    · exact hs
  · show sizePos (if _ then _ else _)
    split
    · refine sizePos_resize ?_
      intro b hb
      rcases List.mem_cons.mp hb with rfl | hb'
      · exact hs
      · exact h b hb'
    · intro b hb
      rcases List.mem_cons.mp hb with rfl | hb'
      · exact hs
      · exact h b hb'

theorem sizePos_remove {am : AllocationMap} {p : Nat} {b : Bool}
    (h : sizePos am) : sizePos (gc_allocation_map_remove am p b) := by
  intro x hx
  rw [remove_allocs] at hx
  exact h x ((removeOnPtr_sublist am.allocs p).subset hx)

theorem sizePos_of_markEvolves {am am' : AllocationMap}
    (hev : markEvolves am am') (h : sizePos am) : sizePos am' := by
  intro b hb
  obtain ⟨a, ha, hs⟩ := forall₂_tagStep_mem_right hev.2.2.2.2.2.2.2 hb
  rw [hs.2.1]
  exact h a ha

theorem sizePos_sweep_loop (l : List Allocation) :
    ∀ am : AllocationMap, sizePos am → sizePos (gc_sweep_loop am l).am := by
  induction l with
  | nil => intro am h; exact h
  | cons a rest ih =>
    intro am h
    cases hm : a.tag.mark with
    | true =>
      rw [gc_sweep_loop_cons_marked hm]
      exact ih _ (sizePos_modify (fun _ => rfl) h)
    | false =>
      cases hr : a.tag.root with
      | true => rw [gc_sweep_loop_cons_root hm hr]; exact ih _ h
      | false =>
        rw [gc_sweep_loop_cons_collect hm hr]
        exact ih _ (sizePos_remove h)

theorem sizePos_sweep_map {am : AllocationMap} (h : sizePos am) :
    sizePos (gc_sweep_map am).am := by
  show sizePos (gc_allocation_map_shrink_to_fit (gc_sweep_loop am am.allocs).am)
  intro b hb
  rw [(shrink_to_fit_frame _).1] at hb
  exact sizePos_sweep_loop am.allocs am h b hb

theorem sizePos_run {mem : Nat → Nat} {stack : List Nat} {gc : GarbageCollector}
    (h : sizePos gc.allocs) : sizePos (gc_run_ext mem stack gc).1.allocs :=
  sizePos_sweep_map (sizePos_of_markEvolves (gc_mark_evolves mem stack gc) h)

theorem sizePos_trigger {mem : Nat → Nat} {stack : List Nat} {w : Nat}
    {gc : GarbageCollector} (h : sizePos gc.allocs) :
    sizePos (gc_trigger mem stack w gc).1.allocs := by
  unfold gc_trigger
  split
  · exact sizePos_run h
  · exact h

theorem sizePos_malloc_ext {mem : Nat → Nat} {stack : List Nat} {gc : GarbageCollector}
    {raw s : Nat} {d : Option Nat} (h : sizePos gc.allocs) (hs : 0 < s) :
    sizePos (gc_malloc_ext mem stack gc raw s d).1.allocs := by
  unfold gc_malloc_ext
  split
  · exact h
  · exact sizePos_trigger (sizePos_put h hs)

theorem sizePos_make_static {gc : GarbageCollector} {p : Nat}
    (h : sizePos gc.allocs) : sizePos (gc_make_static gc p).allocs :=
  sizePos_modify (fun _ => rfl) h

theorem sizePos_applyOp {gc : GarbageCollector} {op : GCOp}
    (h : sizePos gc.allocs) (hop : opSizePos op) :
    sizePos (applyOp gc op).allocs := by
  cases op with
  | opMalloc mem stack raw s => exact sizePos_malloc_ext h hop
  | opMallocExt mem stack raw s d => exact sizePos_malloc_ext h hop
  | opMallocStatic mem stack raw s d =>
    exact sizePos_make_static (sizePos_malloc_ext h hop)
  | opCalloc mem stack raw count s => exact sizePos_malloc_ext h hop
  | opCallocExt mem stack raw count s d => exact sizePos_malloc_ext h hop
  | opStrdup mem stack raw len =>
    show sizePos (gc_strdup mem stack gc raw len).1.allocs
    unfold gc_strdup
    split
    · exact h
    · exact sizePos_modify (fun _ => rfl) (sizePos_malloc_ext h (Nat.succ_pos len))
  | opRealloc mem stack p rawNew s =>
    show sizePos (gc_realloc mem stack gc p rawNew s).1.allocs
    unfold gc_realloc
    split
    · exact sizePos_malloc_ext h hop
    · split
      · exact h
      · rename_i a _
        split
        · exact h
        · split
          · intro b hb
            rcases mem_modifyOnPtr hb with hbl | ⟨x, _, rfl⟩
            · exact h b hbl
            · exact hop
          · exact sizePos_modify (fun _ => rfl)
              (sizePos_put (sizePos_remove h) hop)
  | opFree p =>
    show sizePos (gc_free gc p).1.allocs
    unfold gc_free
    split
    · exact h
    · exact sizePos_remove h
  | opRun mem stack => exact sizePos_run h
  | opPause => exact h
  | opResume => exact h
  | opMakeStatic p => exact sizePos_make_static h

/-- Counterexample to C7 as stated: the public entry `gc_malloc` called
with requested size `0` while the raw allocator returns the non-null
address `8` (exactly what `test_gc_allocation_map_cleanup` does on its
first iteration, where it calls `gc_malloc(gc, 0)`) leaves a live
zero-size record in the registry of a freshly started collector. -/
theorem zero_size_record_reachable :
    ∃ a ∈ (runOps (gc_start_ext 0 8 8 ⟨1, 5⟩ ⟨4, 5⟩ ⟨1, 2⟩)
        [GCOp.opMalloc (fun _ => 0) [] 8 0]).allocs.allocs, a.size = 0 := by
  decide

/-- Claim C7 (amended): in every collector state reachable from
`gc_start_ext` by public operations whose allocation requests are
positive — `malloc`/`malloc_ext`/`malloc_static` and `realloc` with
`size > 0`, `calloc` variants with `count · size > 0` (`strdup` always
registers `len + 1 > 0` bytes) — every live allocation record has
`size > 0`.  Without the positivity proviso the invariant fails:
`gc_malloc(0)` with a non-null raw address registers a zero-size
record. -/
theorem allocation_sizes_positive (bos initial_size min_size : Nat)
    (df uf sf : Ratio) (ops : List GCOp)
    (hops : ∀ op ∈ ops, opSizePos op) :
    sizePos (runOps (gc_start_ext bos initial_size min_size df uf sf) ops).allocs := by
  have hgen : ∀ (l : List GCOp) (gc : GarbageCollector), sizePos gc.allocs →
      (∀ op ∈ l, opSizePos op) → sizePos (runOps gc l).allocs := by
    intro l
    induction l with
    | nil => intro gc h _; exact h
    | cons op rest ih =>
      intro gc h hl
      exact ih _ (sizePos_applyOp h (hl op (by simp)))
        (fun x hx => hl x (by simp [hx]))
  exact hgen ops _ (fun a ha => by simp [gc_start_ext, gc_allocation_map_new] at ha) hops

/-- Witness for the amended C7: a malloc, a static malloc, a free and a
run on a freshly started collector, all with positive requests. -/
theorem allocation_sizes_positive_witness :
    (∀ op ∈ sizePosWitnessOps, opSizePos op) ∧
    sizePos (runOps (gc_start_ext 0 8 8 ⟨1, 5⟩ ⟨4, 5⟩ ⟨1, 2⟩) sizePosWitnessOps).allocs :=
  ⟨by simp [sizePosWitnessOps, opSizePos],
   allocation_sizes_positive 0 8 8 ⟨1, 5⟩ ⟨4, 5⟩ ⟨1, 2⟩ sizePosWitnessOps
     (by simp [sizePosWitnessOps, opSizePos])⟩

/-! ## Root records survive every collection -/

theorem keepStep_of_tagStep {a b : Allocation} (h : tagStep a b) : keepStep a b :=
  ⟨h.1, h.2.1, h.2.2.2.1, h.2.2.1⟩

theorem forall₂_keepStep_refl (l : List Allocation) : List.Forall₂ keepStep l l :=
  List.forall₂_same.mpr (fun _ _ => ⟨rfl, rfl, rfl, rfl⟩)

theorem forall₂_keepStep_trans {l₁ l₂ l₃ : List Allocation}
    (h₁ : List.Forall₂ keepStep l₁ l₂) (h₂ : List.Forall₂ keepStep l₂ l₃) :
    List.Forall₂ keepStep l₁ l₃ := by
  induction h₁ generalizing l₃ with
  | nil => cases h₂; exact List.Forall₂.nil
  | cons hab htl ih =>
    cases h₂ with
    | cons hbc htl' =>
      exact List.Forall₂.cons
        ⟨hbc.1.trans hab.1, hbc.2.1.trans hab.2.1, hbc.2.2.1.trans hab.2.2.1,
          hbc.2.2.2.trans hab.2.2.2⟩ (ih htl')

theorem forall₂_keepStep_map_ptr {l l' : List Allocation}
    (h : List.Forall₂ keepStep l l') :
    l'.map (fun a => a.ptr) = l.map (fun a => a.ptr) := by
  induction h with
  | nil => rfl
  | cons hab _ ih => simp [ih, hab.1]

theorem forall₂_keepStep_mem_right {l l' : List Allocation} {b : Allocation}
    (h : List.Forall₂ keepStep l l') (hb : b ∈ l') : ∃ a ∈ l, keepStep a b := by
  induction h with
  | nil => simp at hb
  | cons hab _ ih =>
    rcases List.mem_cons.mp hb with rfl | hb'
    · exact ⟨_, by simp, hab⟩
    · obtain ⟨a, ha, hs⟩ := ih hb'
      exact ⟨a, by simp [ha], hs⟩

theorem find?_of_mem_nodup {l : List Allocation} {b : Allocation}
    (hnd : (l.map (fun x => x.ptr)).Nodup) (hb : b ∈ l) :
    l.find? (fun x => x.ptr == b.ptr) = some b := by
  induction l with
  | nil => simp at hb
  | cons h rest ih =>
    rw [List.map_cons] at hnd
    rcases List.nodup_cons.mp hnd with ⟨hh, hrest⟩
    rcases List.mem_cons.mp hb with rfl | hb'
    · exact List.find?_cons_of_pos _ (by simp)
    · have hne : h.ptr ≠ b.ptr := by
        intro he
        exact hh (he ▸ List.mem_map_of_mem _ hb')
      rw [List.find?_cons_of_neg _ (by simpa using hne)]
      exact ih hrest hb'

theorem collectedOf_nil_of_keep {l : List Allocation}
    (h : ∀ a ∈ l, a.tag.mark = true ∨ a.tag.root = true) : collectedOf l = [] := by
  induction l with
  | nil => rfl
  | cons a rest ih =>
    have hcp : collectedP a = false := by
      rcases h a (by simp) with hm | hr
      · simp [collectedP, hm]
      · simp [collectedP, hr]
    simp only [collectedOf, List.filter_cons, hcp]
    exact ih (fun x hx => h x (by simp [hx]))

theorem survivors_keep {l : List Allocation}
    (h : ∀ a ∈ l, a.tag.mark = true ∨ a.tag.root = true) :
    List.Forall₂ keepStep l (l.filterMap survivorFn) := by
  induction l with
  | nil => exact List.Forall₂.nil
  | cons a rest ih =>
    have htl := ih (fun x hx => h x (by simp [hx]))
    cases hm : a.tag.mark with
    | true =>
      rw [List.filterMap_cons_some (show survivorFn a = some { a with tag := clearMark a.tag }
            from by simp [survivorFn, hm])]
      exact List.Forall₂.cons ⟨rfl, rfl, rfl, rfl⟩ htl
    | false =>
      have hr : a.tag.root = true := (h a (by simp)).resolve_left (by simp [hm])
      rw [List.filterMap_cons_some (show survivorFn a = some a
            from by simp [survivorFn, hm, hr])]
      exact List.Forall₂.cons ⟨rfl, rfl, rfl, rfl⟩ htl

theorem gc_run_protected (mem : Nat → Nat) (stack : List Nat) (gc : GarbageCollector)
    (hnd : (gc.allocs.allocs.map (fun a => a.ptr)).Nodup)
    (hall : ∀ a ∈ gc.allocs.allocs, a.tag.root = true ∨ a.ptr ∈ stack) :
    List.Forall₂ keepStep gc.allocs.allocs (gc_run_ext mem stack gc).1.allocs.allocs ∧
    (gc_run_ext mem stack gc).1.allocs.size = gc.allocs.size ∧
    (gc_run_ext mem stack gc).2.reclaimed = 0 := by
  have hev := gc_mark_evolves mem stack gc
  have hf : List.Forall₂ tagStep gc.allocs.allocs (gc_mark mem stack gc).allocs.allocs :=
    hev.2.2.2.2.2.2.2
  have hndM : ((gc_mark mem stack gc).allocs.allocs.map (fun a => a.ptr)).Nodup := by
    rw [forall₂_tagStep_map_ptr hf]; exact hnd
  have hkeepM : ∀ b ∈ (gc_mark mem stack gc).allocs.allocs,
      b.tag.mark = true ∨ b.tag.root = true := by
    intro b hb
    obtain ⟨a, ha, hs⟩ := forall₂_tagStep_mem_right hf hb
    rcases hall a ha with hr | hst
    · exact Or.inr (by rw [hs.2.2.2.1, hr])
    · left
      have hma : markedOrAbsent (gc_mark mem stack gc).allocs a.ptr = true :=
        gc_mark_worklist_marks mem (gc_mark_roots mem gc).allocs stack a.ptr hst
      have hgb : gc_allocation_map_get (gc_mark mem stack gc).allocs a.ptr = some b := by
        show List.find? _ _ = _
        rw [← hs.1]
        exact find?_of_mem_nodup hndM hb
      simpa [markedOrAbsent, hgb] using hma
  have hsp := gc_sweep_single_pass (gc_mark mem stack gc) hndM
  have hcoll : collectedOf (gc_mark mem stack gc).allocs.allocs = [] :=
    collectedOf_nil_of_keep hkeepM
  refine ⟨?_, ?_, ?_⟩
  · have h1 : (gc_run_ext mem stack gc).1.allocs.allocs =
        (gc_mark mem stack gc).allocs.allocs.filterMap survivorFn := hsp.2.1
    rw [h1]
    exact forall₂_keepStep_trans (hf.imp (fun a b => keepStep_of_tagStep))
      (survivors_keep hkeepM)
  · have h2 := hsp.2.2.2.2.2.1
    rw [hcoll] at h2
    show (gc_sweep (gc_mark mem stack gc)).2.am.size = gc.allocs.size
    rw [h2]
    simpa using hev.2.2.1
  · have h3 := hsp.2.2.1
    show (gc_sweep (gc_mark mem stack gc)).2.reclaimed = 0
    rw [h3, hcoll]
    rfl

theorem gc_trigger_protected_keep (mem : Nat → Nat) (stack : List Nat) (q : Nat)
    (gc : GarbageCollector)
    (hnd : (gc.allocs.allocs.map (fun a => a.ptr)).Nodup)
    (hall : ∀ a ∈ gc.allocs.allocs, a.tag.root = true ∨ a.ptr = q) :
    List.Forall₂ keepStep gc.allocs.allocs (gc_trigger mem stack q gc).1.allocs.allocs ∧
    (gc_trigger mem stack q gc).1.allocs.size = gc.allocs.size := by
  unfold gc_trigger
  split
  · have h := gc_run_protected mem (stack ++ [q]) gc hnd
      (fun a ha => (hall a ha).imp id (fun hq => by simp [hq]))
    exact ⟨h.1, h.2.1⟩
  · exact ⟨forall₂_keepStep_refl _, rfl⟩

theorem staticAllocs_invariant (mem : Nat → Nat) (stack : List Nat) (d : Nat) :
    ∀ (raws : List Nat) (gc : GarbageCollector),
    (∀ r ∈ raws, r ≠ 0) →
    ((gc.allocs.allocs.map (fun a => a.ptr)) ++ raws).Nodup →
    (∀ a ∈ gc.allocs.allocs, a.tag.root = true ∧ a.size = 512) →
    gc.allocs.size = gc.allocs.allocs.length →
    (∀ a ∈ (staticAllocs mem stack 512 d gc raws).allocs.allocs,
        a.tag.root = true ∧ a.size = 512) ∧
    ((staticAllocs mem stack 512 d gc raws).allocs.allocs.map (fun a => a.ptr)).Nodup ∧
    (staticAllocs mem stack 512 d gc raws).allocs.size =
      (staticAllocs mem stack 512 d gc raws).allocs.allocs.length ∧
    (staticAllocs mem stack 512 d gc raws).allocs.allocs.length =
      gc.allocs.allocs.length + raws.length := by
  intro raws
  induction raws with
  | nil =>
    intro gc _ hnd hroot hsz
    exact ⟨hroot, by simpa using hnd, hsz, by simp [staticAllocs]⟩
  | cons r raws' ih =>
    intro gc hnz hnd hroot hsz
    have hr0 : r ≠ 0 := hnz r (by simp)
    -- the new raw address is fresh
    have hrfresh : ∀ x ∈ gc.allocs.allocs, x.ptr ≠ r := by
      intro x hx he
      have h' := hnd
      rcases List.nodup_append.mp h' with ⟨-, -, hdisj⟩
      exact hdisj (List.mem_map_of_mem _ hx) (by rw [he]; simp)
    have hget0 : gc_allocation_map_get gc.allocs r = none := get_eq_none_iff.mpr hrfresh
    have hput := @put_fresh gc.allocs r 512 (some d) hget0
    -- the trigger check preserves every record: old ones are roots, the new
    -- one is protected by the driver-local slot
    have hnd1 : (((gc_allocation_map_put gc.allocs r 512 (some d)).1.allocs).map
        (fun a => a.ptr)).Nodup := by
      rw [hput.1, List.map_cons]
      refine List.nodup_cons.mpr ⟨?_, ?_⟩
      · show (⟨r, 512, GC_TAG_NONE, some d⟩ : Allocation).ptr ∉ _
        intro hmem
        rcases List.mem_map.mp hmem with ⟨y, hy, hyp⟩
        exact hrfresh y hy hyp
      · exact (List.nodup_append.mp hnd).1
    have htr := gc_trigger_protected_keep mem stack r
      { gc with allocs := (gc_allocation_map_put gc.allocs r 512 (some d)).1 } hnd1
      (by
        intro a ha
        rw [hput.1] at ha
        rcases List.mem_cons.mp ha with rfl | ha'
        · exact Or.inr rfl
        · exact Or.inl (hroot a ha').1)
    have htr1 := htr.1
    rw [hput.1] at htr1
    rcases List.forall₂_cons_left_iff.mp htr1 with ⟨c0, crest, hkc0, hkrest, hteq⟩
    -- one step of the fold
    have hstep : staticAllocs mem stack 512 d gc (r :: raws') =
        staticAllocs mem stack 512 d (gc_malloc_static mem stack gc r 512 (some d)).1 raws' :=
      rfl
    have hgc' : (gc_malloc_static mem stack gc r 512 (some d)).1 =
        gc_make_static (gc_trigger mem stack r
          { gc with allocs := (gc_allocation_map_put gc.allocs r 512 (some d)).1 }).1 r := by
      unfold gc_malloc_static gc_malloc_ext
      rw [if_neg hr0]
    have hc0r : c0.ptr = r := hkc0.1
    have hallocs' : (gc_malloc_static mem stack gc r 512 (some d)).1.allocs.allocs =
        { c0 with tag := { c0.tag with root := true } } :: crest := by
      rw [hgc']
      show modifyOnPtr (gc_trigger mem stack r _).1.allocs.allocs r _ = _
      rw [hteq, modifyOnPtr_cons_self hc0r]
    have hsize' : (gc_malloc_static mem stack gc r 512 (some d)).1.allocs.size =
        gc.allocs.size + 1 := by
      rw [hgc']
      show (gc_trigger mem stack r _).1.allocs.size = _
      rw [htr.2, hput.2]
    -- re-established invariant for the tail
    have hmapcrest : crest.map (fun a => a.ptr) = gc.allocs.allocs.map (fun a => a.ptr) :=
      forall₂_keepStep_map_ptr hkrest
    have hlencrest : crest.length = gc.allocs.allocs.length := by
      have := hkrest.length_eq
      omega
    have hnd' : (((gc_malloc_static mem stack gc r 512 (some d)).1.allocs.allocs.map
        (fun a => a.ptr)) ++ raws').Nodup := by
      rw [hallocs', List.map_cons]
      show ((c0.ptr :: crest.map (fun a => a.ptr)) ++ raws').Nodup
      rw [hc0r, hmapcrest]
      have hperm : ((r :: gc.allocs.allocs.map (fun a => a.ptr)) ++ raws').Perm
          (gc.allocs.allocs.map (fun a => a.ptr) ++ r :: raws') := by
        rw [List.cons_append]
        exact List.perm_middle.symm
      exact hperm.nodup_iff.mpr hnd
    have hroot' : ∀ a ∈ (gc_malloc_static mem stack gc r 512 (some d)).1.allocs.allocs,
        a.tag.root = true ∧ a.size = 512 := by
      rw [hallocs']
      intro a ha
      rcases List.mem_cons.mp ha with rfl | ha'
      · exact ⟨rfl, hkc0.2.1⟩
      · obtain ⟨y, hy, hk⟩ := forall₂_keepStep_mem_right hkrest ha'
        exact ⟨hk.2.2.1.trans (hroot y hy).1, hk.2.1.trans (hroot y hy).2⟩
    have hsz' : (gc_malloc_static mem stack gc r 512 (some d)).1.allocs.size =
        (gc_malloc_static mem stack gc r 512 (some d)).1.allocs.allocs.length := by
      rw [hsize', hallocs', List.length_cons, hlencrest, hsz]
    have hrec := ih (gc_malloc_static mem stack gc r 512 (some d)).1
      (fun x hx => hnz x (by simp [hx])) hnd' hroot' hsz'
    rw [hstep]
    refine ⟨hrec.1, hrec.2.1, hrec.2.2.1, ?_⟩
    rw [hrec.2.2.2, hallocs', List.length_cons, hlencrest]
    simp [Nat.add_assoc, Nat.add_comm 1 raws'.length]

/-- Claim C2: a record whose tag has `ROOT` set is never reclaimed by a
collection.  Concretely, after `gc_start` and 256 allocations of 512
bytes each made via `gc_malloc_static` (at distinct non-null raw
addresses), `gc_run` — for every heap content and every scanned stack —
returns 0 bytes reclaimed and all 256 records remain in the registry. -/
theorem gc_static_allocation_survives (mem mem₂ : Nat → Nat)
    (stack stack₂ : List Nat) (b d : Nat) (raws : List Nat)
    (hlen : raws.length = 256) (hnz : ∀ r ∈ raws, r ≠ 0) (hnd : raws.Nodup) :
    (staticAllocs mem stack 512 d (gc_start b) raws).allocs.size = 256 ∧
    (gc_run mem₂ stack₂ (staticAllocs mem stack 512 d (gc_start b) raws)).2 = 0 ∧
    (gc_run mem₂ stack₂ (staticAllocs mem stack 512 d (gc_start b) raws)).1.allocs.size =
      256 := by
  have hstart : (gc_start b).allocs.allocs = [] := rfl
  have hinv := staticAllocs_invariant mem stack d raws (gc_start b) hnz
    (by simpa [hstart] using hnd) (by simp [hstart]) (by rw [hstart]; rfl)
  obtain ⟨hroot, hndN, hszlen, hlenN⟩ := hinv
  have hsize : (staticAllocs mem stack 512 d (gc_start b) raws).allocs.size = 256 := by
    rw [hszlen, hlenN, hstart, hlen]
    simp
  have hrun := gc_run_protected mem₂ stack₂ (staticAllocs mem stack 512 d (gc_start b) raws)
    hndN (fun a ha => Or.inl (hroot a ha).1)
  refine ⟨hsize, hrun.2.2, ?_⟩
  show (gc_run_ext mem₂ stack₂ (staticAllocs mem stack 512 d (gc_start b) raws)).1.allocs.size
    = 256
  rw [hrun.2.1, hsize]

set_option maxRecDepth 40000 in
/-- Witness for C2: 256 distinct non-null raw addresses, all heap words
zero, empty scanned stacks. -/
theorem gc_static_allocation_survives_witness :
    (staticWitnessRaws.length = 256 ∧ (∀ r ∈ staticWitnessRaws, r ≠ 0) ∧
      staticWitnessRaws.Nodup) ∧
    ((staticAllocs (fun _ => 0) [] 512 0 (gc_start 0) staticWitnessRaws).allocs.size = 256 ∧
     (gc_run (fun _ => 0) []
        (staticAllocs (fun _ => 0) [] 512 0 (gc_start 0) staticWitnessRaws)).2 = 0 ∧
     (gc_run (fun _ => 0) []
        (staticAllocs (fun _ => 0) [] 512 0 (gc_start 0) staticWitnessRaws)).1.allocs.size =
       256) :=
  ⟨⟨by decide, by decide, by decide⟩,
   gc_static_allocation_survives (fun _ => 0) (fun _ => 0) [] [] 0 0 staticWitnessRaws
     (by decide) (by decide) (by decide)⟩

/-- Claim C9: `gc_pause` sets only the `paused` flag to `true` and
`gc_resume` sets it to `false`; neither changes any other collector or
registry state — records, tags, size, capacity, `min_capacity` and
`sweep_limit` are untouched — so a pause/resume pair is a no-op on
everything except the flag. -/
theorem gc_pause_resume_frame (gc : GarbageCollector) :
    (gc_pause gc).paused = true ∧ (gc_resume gc).paused = false ∧
    (gc_pause gc).allocs = gc.allocs ∧ (gc_pause gc).bos = gc.bos ∧
    (gc_pause gc).min_size = gc.min_size ∧
    (gc_resume gc).allocs = gc.allocs ∧ (gc_resume gc).bos = gc.bos ∧
    (gc_resume gc).min_size = gc.min_size ∧
    (gc_pause gc).allocs.allocs = gc.allocs.allocs ∧
    (gc_pause gc).allocs.size = gc.allocs.size ∧
    (gc_pause gc).allocs.capacity = gc.allocs.capacity ∧
    (gc_pause gc).allocs.min_capacity = gc.allocs.min_capacity ∧
    (gc_pause gc).allocs.sweep_limit = gc.allocs.sweep_limit ∧
    gc_resume (gc_pause gc) = gc_resume gc :=
  ⟨rfl, rfl, rfl, rfl, rfl, rfl, rfl, rfl, rfl, rfl, rfl, rfl, rfl, rfl⟩

end Gc
